import Mathlib

/-!
Verification of the `jungle` deployment-directory manager (`src/jungle.py`).

The development shallowly embeds the Jungle engine: `distutils.version.StrictVersion`
(parsing, canonical printing and comparison), the on-disk state of a jungle
(the `release/` listing with modification times, the `current` symlink and the
transient `current.new` path), and the operations `versions`, `oldest`, `head`,
`exists`, `_set`, `set`, `delete`, `degrade`, `check_current`, `age`,
`prune_age` and `prune_iterations`.  Python exceptions become an explicit
error type; an operation returns its result together with the (possibly
partially mutated) state, since a raised exception leaves earlier filesystem
mutations in place.
-/

set_option linter.unnecessarySeqFocus false
set_option linter.unreachableTactic false
set_option linter.unusedTactic false

/-! ## Ordering of natural-number lists (shared comparison core)

Python compares version tuples and byte strings lexicographically.  Both are
reduced to a single lexicographic comparison on `List Nat`. -/

/-- Three-way comparison of naturals. -/
def cmpN (a b : Nat) : Ordering :=
  if a < b then .lt else if b < a then .gt else .eq

/-- Lexicographic three-way comparison of lists of naturals, as Python compares
tuples of integers (a strict prefix sorts first). -/
def listCmp : List Nat → List Nat → Ordering
  | [], [] => .eq
  | [], _ :: _ => .lt
  | _ :: _, [] => .gt
  | a :: as, b :: bs => (cmpN a b).then (listCmp as bs)

theorem cmpN_eq_iff (a b : Nat) : cmpN a b = .eq ↔ a = b := by
  unfold cmpN; split_ifs <;> simp <;> omega

theorem cmpN_lt_iff (a b : Nat) : cmpN a b = .lt ↔ a < b := by
  unfold cmpN; split_ifs <;> simp <;> omega

theorem cmpN_swap (a b : Nat) : cmpN b a = (cmpN a b).swap := by
  unfold cmpN; split_ifs <;> simp [Ordering.swap] <;> omega

theorem Ordering.then_swap (a b : Ordering) : (a.then b).swap = a.swap.then b.swap := by
  cases a <;> cases b <;> rfl

theorem Ordering.then_eq_iff (a b : Ordering) :
    a.then b = .eq ↔ (a = .eq ∧ b = .eq) := by
  cases a <;> cases b <;> simp [Ordering.then]

theorem Ordering.then_lt_iff (a b : Ordering) :
    a.then b = .lt ↔ (a = .lt ∨ (a = .eq ∧ b = .lt)) := by
  cases a <;> cases b <;> simp [Ordering.then]

theorem listCmp_eq_iff (l m : List Nat) : listCmp l m = .eq ↔ l = m := by
  induction l generalizing m with
  | nil => cases m <;> simp [listCmp]
  | cons a as ih =>
    cases m with
    | nil => simp [listCmp]
    | cons b bs =>
      show (cmpN a b).then (listCmp as bs) = .eq ↔ _
      rw [Ordering.then_eq_iff, cmpN_eq_iff, ih]
      constructor
      · rintro ⟨rfl, rfl⟩; rfl
      · intro h; injection h with h1 h2; exact ⟨h1, h2⟩

theorem listCmp_swap (l m : List Nat) : listCmp m l = (listCmp l m).swap := by
  induction l generalizing m with
  | nil => cases m <;> rfl
  | cons a as ih =>
    cases m with
    | nil => rfl
    | cons b bs =>
      show (cmpN b a).then (listCmp bs as) = ((cmpN a b).then (listCmp as bs)).swap
      rw [ih, Ordering.then_swap]
      congr 1
      exact cmpN_swap a b

theorem listCmp_lt_trans : ∀ {l m k : List Nat},
    listCmp l m = .lt → listCmp m k = .lt → listCmp l k = .lt := by
  intro l
  induction l with
  | nil =>
    intro m k h1 h2
    cases m with
    | nil => exact h2
    | cons b bs =>
      cases k with
      | nil => simp [listCmp] at h2
      | cons c cs => rfl
  | cons a as ih =>
    intro m k h1 h2
    cases m with
    | nil => simp [listCmp] at h1
    | cons b bs =>
      cases k with
      | nil => simp [listCmp] at h2
      | cons c cs =>
        have h1' : (cmpN a b).then (listCmp as bs) = .lt := h1
        have h2' : (cmpN b c).then (listCmp bs cs) = .lt := h2
        show (cmpN a c).then (listCmp as cs) = .lt
        rw [Ordering.then_lt_iff] at h1' h2' ⊢
        rcases h1' with hab | ⟨hab, h1t⟩ <;> rcases h2' with hbc | ⟨hbc, h2t⟩
        · left; rw [cmpN_lt_iff] at *; omega
        · rw [cmpN_eq_iff] at hbc; subst hbc; left; exact hab
        · rw [cmpN_eq_iff] at hab; subst hab; left; exact hbc
        · rw [cmpN_eq_iff] at hab hbc; subst hab; subst hbc
          exact Or.inr ⟨(cmpN_eq_iff _ _).mpr rfl, ih h1t h2t⟩

theorem listCmp_gt_iff (l m : List Nat) : listCmp l m = .gt ↔ listCmp m l = .lt := by
  rw [listCmp_swap l m]
  cases listCmp l m <;> simp [Ordering.swap]

/-- `le` form of the list comparison: not strictly greater. -/
def listLe (l m : List Nat) : Prop := listCmp l m ≠ Ordering.gt

instance listLe.instDecidable : DecidableRel listLe := fun l m =>
  inferInstanceAs (Decidable (listCmp l m ≠ Ordering.gt))

theorem listLe_total (l m : List Nat) : listLe l m ∨ listLe m l := by
  unfold listLe
  rcases h : listCmp l m with _ | _ | _
  · left; simp
  · left; simp
  · right; rw [listCmp_gt_iff] at h; simp [h]

theorem listLe_trans {l m k : List Nat} (h1 : listLe l m) (h2 : listLe m k) : listLe l k := by
  unfold listLe at h1 h2 ⊢
  rcases hlm : listCmp l m with _ | _ | _
  · rcases hmk : listCmp m k with _ | _ | _
    · have := listCmp_lt_trans hlm hmk; simp [this]
    · rw [listCmp_eq_iff] at hmk; subst hmk; simp [hlm]
    · exact absurd hmk h2
  · rw [listCmp_eq_iff] at hlm; subst hlm; exact h2
  · exact absurd hlm h1

theorem listLe_antisymm {l m : List Nat} (h1 : listLe l m) (h2 : listLe m l) : l = m := by
  unfold listLe at h1 h2
  rcases h : listCmp l m with _ | _ | _
  · exact absurd ((listCmp_gt_iff m l).mpr h) h2
  · exact (listCmp_eq_iff l m).mp h
  · exact absurd h h1

theorem listLe_of_lt {l m : List Nat} (h : listCmp l m = .lt) : listLe l m := by
  unfold listLe; simp [h]

theorem listLe_refl (l : List Nat) : listLe l l := by
  unfold listLe
  rw [(listCmp_eq_iff l l).mpr rfl]
  simp

/-! ## StrictVersion (`distutils.version.StrictVersion`)

A strict version is `major.minor[.patch][{a|b}N]`: the regex in distutils is
`^(\d+) \. (\d+) (\. (\d+))? ([ab](\d+))?$` (verbose mode, ASCII digits).
A missing patch component parses as `0`.  The pre-release letter is stored as
a `Bool` (`false` = `a`, `true` = `b`), so every value of the structure is a
value the parser can produce. -/

structure StrictVersion where
  major : Nat
  minor : Nat
  patch : Nat
  pre : Option (Bool × Nat)
deriving DecidableEq, Repr

/-- Comparison key: the pre-release marker sorts strictly before the same
numeric version without a marker, and `a` before `b`; numeric suffixes compare
numerically.  `distutils` compares `self.version` tuples, then `prerelease`. -/
def StrictVersion.key (v : StrictVersion) : List Nat :=
  [v.major, v.minor, v.patch] ++
    (match v.pre with
     | none => [1, 0, 0]
     | some (bb, k) => [0, if bb then 1 else 0, k])

/-- Three-way comparison, as `StrictVersion.__cmp__`. -/
def svCmp (a b : StrictVersion) : Ordering :=
  listCmp a.key b.key

theorem key_inj {a b : StrictVersion} (h : a.key = b.key) : a = b := by
  cases a with
  | mk ma mi pa pr =>
    cases b with
    | mk mb nb pb qr =>
      cases pr with
      | none =>
        cases qr with
        | none => simp_all [StrictVersion.key]
        | some q =>
          exfalso
          rcases q with ⟨bb, k⟩
          simp [StrictVersion.key] at h
      | some p =>
        rcases p with ⟨bb, k⟩
        cases qr with
        | none =>
          exfalso
          simp [StrictVersion.key] at h
        | some q =>
          rcases q with ⟨cc, j⟩
          simp [StrictVersion.key] at h
          obtain ⟨h1, h2, h3, h4, h5⟩ := h
          cases bb <;> cases cc <;> simp_all

theorem svCmp_eq_iff (a b : StrictVersion) : svCmp a b = .eq ↔ a = b := by
  unfold svCmp
  rw [listCmp_eq_iff]
  constructor
  · exact key_inj
  · rintro rfl; rfl

theorem svCmp_swap (a b : StrictVersion) : svCmp b a = (svCmp a b).swap :=
  listCmp_swap _ _

theorem svCmp_lt_trans {a b c : StrictVersion}
    (h1 : svCmp a b = .lt) (h2 : svCmp b c = .lt) : svCmp a c = .lt :=
  listCmp_lt_trans h1 h2

/-- The sort relation on versions used by Python's `sorted`/`max`. -/
def svle (a b : StrictVersion) : Prop := svCmp a b ≠ Ordering.gt

instance svle.instDecidable : DecidableRel svle := fun a b =>
  inferInstanceAs (Decidable (svCmp a b ≠ Ordering.gt))

instance : IsTotal StrictVersion svle := ⟨fun a b => listLe_total a.key b.key⟩

instance : IsTrans StrictVersion svle := ⟨fun _ _ _ => listLe_trans⟩

instance : IsAntisymm StrictVersion svle :=
  ⟨fun a b h1 h2 => key_inj (listLe_antisymm h1 h2)⟩

instance : IsRefl StrictVersion svle := ⟨fun a => listLe_refl a.key⟩

/-! ## Decimal digits: printing and reading

`str(int)` on a natural number, and the numeric value of a run of ASCII
digits, as used by the regex groups. -/

/-- The character for a decimal digit. -/
def digitChar (d : Nat) : Char :=
  match d with
  | 0 => '0' | 1 => '1' | 2 => '2' | 3 => '3' | 4 => '4'
  | 5 => '5' | 6 => '6' | 7 => '7' | 8 => '8' | _ => '9'

/-- Decimal printing of a natural number, most significant digit first.
The first argument is recursion fuel; `natRepr` supplies enough. -/
def natReprAux : Nat → Nat → List Char
  | 0, _ => []
  | fuel + 1, n =>
    if n < 10 then [digitChar n] else natReprAux fuel (n / 10) ++ [digitChar (n % 10)]

/-- `str(n)` for a natural number. -/
def natRepr (n : Nat) : String := String.mk (natReprAux (n + 1) n)

/-- Numeric value of a digit run, as `int()` of the regex group. -/
def digitsVal (l : List Char) : Nat :=
  l.foldl (fun a c => 10 * a + (c.toNat - 48)) 0

theorem digitChar_toNat {d : Nat} (h : d < 10) : (digitChar d).toNat = 48 + d := by
  interval_cases d <;> rfl

theorem digitChar_isDigit {d : Nat} (h : d < 10) : (digitChar d).isDigit = true := by
  interval_cases d <;> rfl

theorem digitsVal_append (l : List Char) (c : Char) :
    digitsVal (l ++ [c]) = 10 * digitsVal l + (c.toNat - 48) := by
  unfold digitsVal
  rw [List.foldl_append]
  rfl

theorem natReprAux_spec : ∀ fuel n, n < fuel →
    digitsVal (natReprAux fuel n) = n ∧ natReprAux fuel n ≠ [] ∧
      ∀ c ∈ natReprAux fuel n, c.isDigit = true := by
  intro fuel
  induction fuel with
  | zero => intro n h; omega
  | succ f ih =>
    intro n h
    unfold natReprAux
    by_cases h10 : n < 10
    · simp [h10, digitsVal, digitChar_toNat h10, digitChar_isDigit h10]
    · have hdiv : n / 10 < f := by
        have : n / 10 < n := Nat.div_lt_self (by omega) (by omega)
        omega
      obtain ⟨iv, ine, idig⟩ := ih (n / 10) hdiv
      have hmod : n % 10 < 10 := Nat.mod_lt _ (by omega)
      rw [if_neg h10]
      refine ⟨?_, ?_, ?_⟩
      · rw [digitsVal_append, iv, digitChar_toNat hmod]
        omega
      · simp
      · intro c hc
        rw [List.mem_append] at hc
        rcases hc with hc | hc
        · exact idig c hc
        · simp at hc; subst hc; exact digitChar_isDigit hmod

theorem digitsVal_natRepr (n : Nat) : digitsVal (natRepr n).data = n :=
  (natReprAux_spec (n + 1) n (by omega)).1

theorem natRepr_ne_nil (n : Nat) : (natRepr n).data ≠ [] :=
  (natReprAux_spec (n + 1) n (by omega)).2.1

theorem natRepr_digits (n : Nat) : ∀ c ∈ (natRepr n).data, c.isDigit = true :=
  (natReprAux_spec (n + 1) n (by omega)).2.2

/-! ## Parsing and printing versions -/

/-- Parse the optional pre-release suffix (`[ab]\d+` then end of string) and
assemble the version.  `distutils` records the letter and the numeric value. -/
def parsePre (ma mi pa : Nat) (rest : List Char) : Option StrictVersion :=
  match rest with
  | [] => some ⟨ma, mi, pa, none⟩
  | c :: cs2 =>
    if c == 'a' || c == 'b' then
      let ds := cs2.takeWhile Char.isDigit
      let rs := cs2.dropWhile Char.isDigit
      if ds = [] then none
      else if rs = [] then some ⟨ma, mi, pa, some (c == 'b', digitsVal ds)⟩
      else none
    else none

/-- `StrictVersion(item)`: match the anchored regex
`^(\d+)\.(\d+)(\.(\d+))?([ab](\d+))?$`; a failed match is `none`
(the `ValueError` that callers catch).  A missing patch group is `0`. -/
def parseVersion (str : String) : Option StrictVersion :=
  let cs := str.data
  let d1 := cs.takeWhile Char.isDigit
  let r1 := cs.dropWhile Char.isDigit
  if d1 = [] then none else
  match r1 with
  | '.' :: r2 =>
    let d2 := r2.takeWhile Char.isDigit
    let r3 := r2.dropWhile Char.isDigit
    if d2 = [] then none else
    match r3 with
    | '.' :: r4 =>
      let d3 := r4.takeWhile Char.isDigit
      let r5 := r4.dropWhile Char.isDigit
      if d3 = [] then none
      else parsePre (digitsVal d1) (digitsVal d2) (digitsVal d3) r5
    | _ => parsePre (digitsVal d1) (digitsVal d2) 0 r3
  | _ => none

/-- `str(version)`: `major.minor`, with `.patch` only when the patch is
non-zero, then the pre-release letter and number when present.  This is the
canonical string form; it can differ from the directory name that parsed to
the version (e.g. `1.0.0` prints as `1.0`). -/
def StrictVersion.str (v : StrictVersion) : String :=
  let base := natRepr v.major ++ "." ++ natRepr v.minor
  let base2 := if v.patch = 0 then base else base ++ "." ++ natRepr v.patch
  match v.pre with
  | none => base2
  | some (bb, k) => base2 ++ (if bb then "b" else "a") ++ natRepr k

theorem takeWhile_digits_append : ∀ (l1 l2 : List Char),
    (∀ c ∈ l1, c.isDigit = true) →
    (∀ c cs2, l2 = c :: cs2 → c.isDigit = false) →
    (l1 ++ l2).takeWhile Char.isDigit = l1 ∧ (l1 ++ l2).dropWhile Char.isDigit = l2 := by
  intro l1
  induction l1 with
  | nil =>
    intro l2 _ h2
    cases l2 with
    | nil => simp
    | cons c cs =>
      have hc : c.isDigit = false := h2 c cs rfl
      constructor
      · simp [List.takeWhile_cons, hc]
      · simp [List.dropWhile_cons, hc]
  | cons a as ih =>
    intro l2 h1 h2
    have ha : a.isDigit = true := h1 a (by simp)
    obtain ⟨ht, hd⟩ := ih l2 (fun c hc => h1 c (by simp [hc])) h2
    constructor
    · simp [List.takeWhile_cons, ha, ht]
    · simp [List.dropWhile_cons, ha, hd]

theorem parsePre_letter (ma mi pa : Nat) (bb : Bool) (dk : List Char)
    (hk : ∀ c ∈ dk, c.isDigit = true) (hkne : dk ≠ []) :
    parsePre ma mi pa ((if bb then 'b' else 'a') :: dk) =
      some ⟨ma, mi, pa, some (bb, digitsVal dk)⟩ := by
  obtain ⟨ht, hd⟩ := takeWhile_digits_append dk [] hk (by intro c cs2 h; cases h)
  rw [List.append_nil] at ht hd
  cases bb
  · show parsePre ma mi pa ('a' :: dk) = _
    unfold parsePre
    simp [ht, hd, hkne]
  · show parsePre ma mi pa ('b' :: dk) = _
    unfold parsePre
    simp [ht, hd, hkne]

theorem parseVersion_mk_noPatch (dM dm tail : List Char)
    (hM : ∀ c ∈ dM, c.isDigit = true) (hMne : dM ≠ [])
    (hm : ∀ c ∈ dm, c.isDigit = true) (hmne : dm ≠ [])
    (htail : tail = [] ∨ ∃ c cs2, tail = c :: cs2 ∧ c.isDigit = false ∧ c ≠ '.') :
    parseVersion (String.mk (dM ++ '.' :: (dm ++ tail))) =
      parsePre (digitsVal dM) (digitsVal dm) 0 tail := by
  have hdot : ('.' : Char).isDigit = false := by decide
  obtain ⟨ht1, hd1⟩ :=
    takeWhile_digits_append dM ('.' :: (dm ++ tail)) hM
      (by intro c cs2 h; injection h with h1 _; subst h1; exact hdot)
  have htl : ∀ c cs2, tail = c :: cs2 → c.isDigit = false := by
    intro c cs2 hcc
    rcases htail with rfl | ⟨c2, cs3, heq, hfalse, _⟩
    · cases hcc
    · rw [heq] at hcc; injection hcc with h1 _; subst h1; exact hfalse
  obtain ⟨ht2, hd2⟩ := takeWhile_digits_append dm tail hm htl
  unfold parseVersion
  simp only [ht1, hd1, ht2, hd2, if_neg hMne, if_neg hmne]
  rcases htail with rfl | ⟨c, cs2, rfl, _, hnotdot⟩
  · rfl
  · split
    · rename_i heq
      injection heq with h1 h2
      exact absurd h1 hnotdot
    · rfl

theorem parseVersion_mk_patch (dM dm dp tail : List Char)
    (hM : ∀ c ∈ dM, c.isDigit = true) (hMne : dM ≠ [])
    (hm : ∀ c ∈ dm, c.isDigit = true) (hmne : dm ≠ [])
    (hp : ∀ c ∈ dp, c.isDigit = true) (hpne : dp ≠ [])
    (htail : ∀ c cs2, tail = c :: cs2 → c.isDigit = false) :
    parseVersion (String.mk (dM ++ '.' :: (dm ++ '.' :: (dp ++ tail)))) =
      parsePre (digitsVal dM) (digitsVal dm) (digitsVal dp) tail := by
  have hdot : ('.' : Char).isDigit = false := by decide
  obtain ⟨ht1, hd1⟩ :=
    takeWhile_digits_append dM ('.' :: (dm ++ '.' :: (dp ++ tail))) hM
      (by intro c cs2 h; injection h with h1 _; subst h1; exact hdot)
  obtain ⟨ht2, hd2⟩ :=
    takeWhile_digits_append dm ('.' :: (dp ++ tail)) hm
      (by intro c cs2 h; injection h with h1 _; subst h1; exact hdot)
  obtain ⟨ht3, hd3⟩ := takeWhile_digits_append dp tail hp htail
  unfold parseVersion
  simp only [ht1, hd1, ht2, hd2, ht3, hd3, if_neg hMne, if_neg hmne, if_neg hpne]

theorem data_append (a b : String) : (a ++ b).data = a.data ++ b.data := rfl

theorem parseVersion_eq_of_data {s t : String} (h : s.data = t.data) :
    parseVersion s = parseVersion t := by
  cases s with
  | mk d1 =>
    cases t with
    | mk d2 =>
      simp only at h
      subst h
      rfl

/-- Parsing is a retraction of canonical printing: the canonical string of a
version parses back to the same version.  This is what makes `release/<str v>`
lookups consistent with `check_current`'s reparse of the link target. -/
theorem parse_str (v : StrictVersion) : parseVersion v.str = some v := by
  obtain ⟨M, m, p, pre⟩ := v
  have hM := natRepr_digits M
  have hMne := natRepr_ne_nil M
  have hm := natRepr_digits m
  have hmne := natRepr_ne_nil m
  cases pre with
  | none =>
    by_cases hp : p = 0
    · subst hp
      have hdata : (StrictVersion.str ⟨M, m, 0, none⟩).data
          = (natRepr M).data ++ '.' :: ((natRepr m).data ++ []) := by
        show (natRepr M ++ "." ++ natRepr m).data = _
        simp [data_append]
      rw [parseVersion_eq_of_data hdata,
        parseVersion_mk_noPatch _ _ _ hM hMne hm hmne (Or.inl rfl)]
      unfold parsePre
      rw [digitsVal_natRepr, digitsVal_natRepr]
    · have hdata : (StrictVersion.str ⟨M, m, p, none⟩).data
          = (natRepr M).data ++ '.' :: ((natRepr m).data ++ '.' :: ((natRepr p).data ++ [])) := by
        show (if p = 0 then _ else _ : String).data = _
        rw [if_neg hp]
        show (natRepr M ++ "." ++ natRepr m ++ "." ++ natRepr p).data = _
        simp [data_append]
      rw [parseVersion_eq_of_data hdata,
        parseVersion_mk_patch _ _ _ _ hM hMne hm hmne (natRepr_digits p) (natRepr_ne_nil p)
          (by intro c cs2 h; cases h)]
      unfold parsePre
      rw [digitsVal_natRepr, digitsVal_natRepr, digitsVal_natRepr]
  | some q =>
    obtain ⟨bb, k⟩ := q
    have hk := natRepr_digits k
    have hkne := natRepr_ne_nil k
    have hldig : (if bb then 'b' else 'a').isDigit = false := by cases bb <;> decide
    have hldot : (if bb then 'b' else 'a') ≠ '.' := by cases bb <;> decide
    have hldata : ((if bb then "b" else "a" : String)).data = [if bb then 'b' else 'a'] := by
      cases bb <;> rfl
    by_cases hp : p = 0
    · subst hp
      have hdata : (StrictVersion.str ⟨M, m, 0, some (bb, k)⟩).data
          = (natRepr M).data ++ '.' ::
              ((natRepr m).data ++ ((if bb then 'b' else 'a') :: (natRepr k).data)) := by
        show ((natRepr M ++ "." ++ natRepr m) ++ (if bb then "b" else "a") ++ natRepr k).data = _
        simp [data_append, hldata]
      rw [parseVersion_eq_of_data hdata,
        parseVersion_mk_noPatch _ _ _ hM hMne hm hmne
          (Or.inr ⟨_, _, rfl, hldig, hldot⟩),
        parsePre_letter _ _ _ _ _ hk hkne]
      rw [digitsVal_natRepr, digitsVal_natRepr, digitsVal_natRepr]
    · have hdata : (StrictVersion.str ⟨M, m, p, some (bb, k)⟩).data
          = (natRepr M).data ++ '.' ::
              ((natRepr m).data ++ '.' ::
                ((natRepr p).data ++ ((if bb then 'b' else 'a') :: (natRepr k).data))) := by
        show ((if p = 0 then _ else _) ++ (if bb then "b" else "a") ++ natRepr k : String).data = _
        rw [if_neg hp]
        show ((natRepr M ++ "." ++ natRepr m ++ "." ++ natRepr p)
            ++ (if bb then "b" else "a") ++ natRepr k).data = _
        simp [data_append, hldata]
      rw [parseVersion_eq_of_data hdata,
        parseVersion_mk_patch _ _ _ _ hM hMne hm hmne (natRepr_digits p) (natRepr_ne_nil p)
          (by intro c cs2 h; injection h with h1 _; subst h1; exact hldig),
        parsePre_letter _ _ _ _ _ hk hkne]
      rw [digitsVal_natRepr, digitsVal_natRepr, digitsVal_natRepr, digitsVal_natRepr]

/-- Canonical string forms are distinct for distinct versions. -/
theorem str_inj {a b : StrictVersion} (h : a.str = b.str) : a = b := by
  have ha := parse_str a
  have hb := parse_str b
  rw [h, hb] at ha
  injection ha with h1
  exact h1.symm

/-! ## Sorting

`sorted()` on directory names (byte strings, compared lexicographically) and
on versions.  The Python sort is modelled by insertion sort; for the inputs at
hand (distinct names; versions whose ties are identical values) the sorted
permutation is unique, so any correct sort denotes `sorted()`. -/

/-- Byte-comparison key of a (ASCII) directory name. -/
def strKey (a : String) : List Nat := a.data.map Char.toNat

/-- Python 2 string `<=`: lexicographic byte order. -/
def strle (a b : String) : Prop := listLe (strKey a) (strKey b)

instance strle.instDecidable : DecidableRel strle := fun a b =>
  inferInstanceAs (Decidable (listLe (strKey a) (strKey b)))

instance : IsTotal String strle := ⟨fun a b => listLe_total (strKey a) (strKey b)⟩

instance : IsTrans String strle := ⟨fun _ _ _ => listLe_trans⟩

theorem charToNat_inj : Function.Injective Char.toNat := by
  intro a b h
  have hv : a.val = b.val := UInt32.ext h
  cases a; cases b; simp_all

instance : IsAntisymm String strle := by
  constructor
  intro a b h1 h2
  have hk : strKey a = strKey b := listLe_antisymm h1 h2
  unfold strKey at hk
  have := List.map_injective_iff.mpr charToNat_inj hk
  cases a; cases b; simp_all

/-! ## The jungle state

A `JungleState` is the on-disk content of the managed directory:
`release` is the listing of `release/` (entry name with its subtree
modification time, in seconds; every entry is a directory, as produced by
deployment tooling), `current` and `currentNew` are the directory entries at
`<parent>/current` and `<parent>/current.new` (`none` when absent), and `now`
is the clock read by `time.time()`.  A non-symlink entry (regular file or
directory) is `plain`: the code only distinguishes symlink-ness, existence
and, for `release/<v>`, directory-ness of the canonical path.

Relative symlink targets are resolved inside the jungle layout: a target
`release/<name>` exists iff `name` is an entry of `release/`, the target
`release` itself exists, and anything else is treated as nonexistent (the
parent directory is assumed to contain nothing but the jungle). -/

inductive FEntry where
  | symlink (target : String)
  | plain
deriving DecidableEq, Repr

structure JungleState where
  release : List (String × Int)
  current : Option FEntry
  currentNew : Option FEntry
  now : Int
deriving DecidableEq, Repr

/-- Python exception classes raised by the engine. -/
inductive PyExc where
  | osError | keyErrorExc | valueError | indexError | typeError
deriving DecidableEq, Repr

/-- The raise sites of the engine, one constructor per distinct failure. -/
inductive Err where
  /-- `OSError("No current exists for %s - is this an initialised jungle?")`
  (raised by `check_current`, `set` and `delete`). -/
  | noCurrent
  /-- `OSError("Current %s is not a symlink, bailing")`. -/
  | notASymlink
  /-- `OSError("Current %s does not point to something in release!")`. -/
  | malformedTarget
  /-- `OSError("Current %s does not point to a valid version!")`. -/
  | invalidVersion
  /-- line 145: `raise OSError("Current does not point to a valid directory!" % current)`:
  the format string has no conversion specifier, so evaluating it raises
  `TypeError("not all arguments converted during string formatting")` before
  any `OSError` is constructed. -/
  | typeErrorFmt
  /-- `OSError("Will not delete current version")`. -/
  | cannotDeleteCurrent
  /-- `KeyError("Version %s does not exist")` from `_set` and `delete`. -/
  | keyError
  /-- `ValueError` from `max()` on an empty sequence (`head`). -/
  | emptyMax
  /-- `IndexError` from `sorted(...)[0]` on an empty list (`oldest`). -/
  | emptyIndex
  /-- `ValueError("Not enough versions to rollback")` from `degrade`. -/
  | notEnoughVersions
  /-- `OSError(EEXIST)` from `os.symlink` when `current.new` already exists. -/
  | eexistError
  /-- `OSError(ENOENT)` from `os.stat` on a missing path (`age`). -/
  | statError
deriving DecidableEq, Repr

/-- The Python class of each raised exception. -/
def Err.pyExc : Err → PyExc
  | .noCurrent => .osError
  | .notASymlink => .osError
  | .malformedTarget => .osError
  | .invalidVersion => .osError
  | .typeErrorFmt => .typeError
  | .cannotDeleteCurrent => .osError
  | .keyError => .keyErrorExc
  | .emptyMax => .valueError
  | .emptyIndex => .indexError
  | .notEnoughVersions => .valueError
  | .eexistError => .osError
  | .statError => .osError

deriving instance DecidableEq for Except

/-- `s[:n]` on a Python string (character slicing). -/
def strTake (t : String) (n : Nat) : String := String.mk (t.data.take n)

/-- `s[n:]` on a Python string. -/
def strDrop (t : String) (n : Nat) : String := String.mk (t.data.drop n)

namespace Jungle

/-- Resolved existence of a relative symlink target inside the jungle
(`os.path.exists` follows links). -/
def targetExists (s : JungleState) (t : String) : Bool :=
  if t == "release" then true
  else if strTake t 8 == "release/" then
    s.release.any (fun e => e.1 == strDrop t 8)
  else false

/-- `os.path.exists(self.current)`: follows the symlink, so a dangling
`current` does not exist. -/
def currentExists (s : JungleState) : Bool :=
  match s.current with
  | none => false
  | some .plain => true
  | some (.symlink t) => targetExists s t

/-- `Jungle.check_current` (also bound as `current_version`): the sanity
checks on `current`, re-derived from disk on every call.  Note two quirks of
the source, both modelled exactly:
`os.path.exists` is checked first and follows the link, so a symlink whose
target is missing fails with the "No current exists" error rather than a
dangling-pointer message; and the final `isdir` failure raises `TypeError`
from its broken message formatting (see `Err.typeErrorFmt`). -/
def check_current (s : JungleState) : Except Err StrictVersion :=
  match s.current with
  | none => .error .noCurrent
  | some .plain => .error .notASymlink
  | some (.symlink t) =>
    if ! targetExists s t then .error .noCurrent
    else if ! (strTake t 8 == "release/") then .error .malformedTarget
    else
      match parseVersion (strDrop t 8) with
      | none => .error .invalidVersion
      | some version =>
        if s.release.any (fun e => e.1 == version.str) then .ok version
        else .error .typeErrorFmt

/-- The names listed by `os.listdir(self.release)`. -/
def names (s : JungleState) : List String := s.release.map Prod.fst

/-- `sorted(os.listdir(self.release))`: ascending byte order of the names. -/
def sortedNames (s : JungleState) : List String := List.insertionSort strle (names s)

/-- `Jungle.versions`: parse each listed name in sorted-name order, silently
discarding the ones `StrictVersion` rejects. -/
def versions (s : JungleState) : List StrictVersion :=
  (sortedNames s).filterMap parseVersion

/-- `sorted(self.versions())`. -/
def sortedVersions (s : JungleState) : List StrictVersion :=
  List.insertionSort svle (versions s)

/-- `Jungle.oldest`: `sorted(self.versions())[0]`; indexing an empty list
raises `IndexError`. -/
def oldest (s : JungleState) : Except Err StrictVersion :=
  match sortedVersions s with
  | [] => .error .emptyIndex
  | x :: _ => .ok x

/-- `Jungle.head`: `max(self.versions())`; `max` of an empty sequence raises
`ValueError`, and on ties keeps the first occurrence. -/
def head (s : JungleState) : Except Err StrictVersion :=
  match versions s with
  | [] => .error .emptyMax
  | x :: xs => .ok (xs.foldl (fun a b => if svCmp a b = Ordering.lt then b else a) x)

/-- `Jungle.exists`: `os.path.isdir(self.path(str(version)))` — the lookup
uses the canonical string form of the version. -/
def existsVersion (s : JungleState) (v : StrictVersion) : Bool :=
  s.release.any (fun e => e.1 == v.str)

/-- `Jungle._set`: check the version directory exists, create the
`current.new` symlink, rename it onto `current`.  `os.symlink` fails with
`EEXIST` when `current.new` is already present (it never overwrites);
`os.rename` atomically replaces `current` (every call site guarantees
`current` is absent or a symlink, so the rename cannot hit an existing
directory).  The create-then-rename pair is one visible transition here,
since no claim observes the intermediate state. -/
def _set (s : JungleState) (v : StrictVersion) : Except Err Unit × JungleState :=
  if ! existsVersion s v then (.error .keyError, s)
  else if s.currentNew.isSome then (.error .eexistError, s)
  else
    (.ok (), { s with current := some (.symlink ("release/" ++ v.str)), currentNew := none })

/-- `Jungle.set`: validate current, re-check that `current` exists, then
`_set` and return the version. -/
def set (s : JungleState) (v : StrictVersion) : Except Err StrictVersion × JungleState :=
  match check_current s with
  | .error e => (.error e, s)
  | .ok _ =>
    if ! currentExists s then (.error .noCurrent, s)
    else
      match _set s v with
      | (.ok _, s2) => (.ok v, s2)
      | (.error e, s2) => (.error e, s2)

/-- `Jungle.delete`: validate, require the version directory to exist,
re-check `current`, refuse to delete the current version, then
`shutil.rmtree` the canonical path `release/<str v>`. -/
def delete (s : JungleState) (v : StrictVersion) : Except Err Unit × JungleState :=
  match check_current s with
  | .error e => (.error e, s)
  | .ok _ =>
    if ! existsVersion s v then (.error .keyError, s)
    else if ! currentExists s then (.error .noCurrent, s)
    else
      match check_current s with
      | .error e => (.error e, s)
      | .ok cv =>
        if svCmp v cv = Ordering.eq then (.error .cannotDeleteCurrent, s)
        else
          (.ok (), { s with release := s.release.filter (fun e => ! (e.1 == v.str)) })

/-- `Jungle.degrade`: pick `sorted(versions)[-2]`; `ValueError` when fewer
than two version entries are listed; with `dry_run` just report the choice,
otherwise `set` it.  Returns `str(previous)`. -/
def degrade (s : JungleState) (dry_run : Bool) : Except Err String × JungleState :=
  match check_current s with
  | .error e => (.error e, s)
  | .ok _ =>
    let v := versions s
    if v.length < 2 then (.error .notEnoughVersions, s)
    else
      match (List.insertionSort svle v)[v.length - 2]? with
      | none => (.error .emptyIndex, s)
      | some previous =>
        if dry_run then (.ok previous.str, s)
        else
          match set s previous with
          | (.ok _, s2) => (.ok previous.str, s2)
          | (.error e, s2) => (.error e, s2)

/-- `Jungle.age`: whole days from the subtree modification time,
`int((now - mtime) / 86400.0)` — float division then `int()`, which
truncates toward zero (`Int.div`).  `os.stat` on a missing path raises. -/
def age (s : JungleState) (v : StrictVersion) : Except Err Int :=
  match s.release.find? (fun e => e.1 == v.str) with
  | none => .error .statError
  | some e => .ok (Int.div (s.now - e.2) 86400)

/-- Loop body of `prune_age`: iterate over the snapshot of `versions()`
taken when the generator first runs, re-reading `current_version()` each
iteration, skipping the current version, deleting any other version whose
age exceeds the limit. -/
def prune_age_loop (s : JungleState) (vs : List StrictVersion) (limit : Int) :
    Except Err Unit × JungleState :=
  match vs with
  | [] => (.ok (), s)
  | v :: rest =>
    match check_current s with
    | .error e => (.error e, s)
    | .ok cv =>
      if svCmp v cv = Ordering.eq then prune_age_loop s rest limit
      else
        match age s v with
        | .error e => (.error e, s)
        | .ok days =>
          if days > limit then
            match delete s v with
            | (.ok _, s2) => prune_age_loop s2 rest limit
            | (.error e, s2) => (.error e, s2)
          else prune_age_loop s rest limit

/-- `Jungle.prune_age`. -/
def prune_age (s : JungleState) (limit : Int) : Except Err Unit × JungleState :=
  match check_current s with
  | .error e => (.error e, s)
  | .ok _ => prune_age_loop s (versions s) limit

theorem delete_ok_shrink {s : JungleState} {v : StrictVersion} {u : Unit} {s2 : JungleState}
    (hd : delete s v = (.ok u, s2)) : s2.release.length < s.release.length := by
  unfold delete at hd
  split at hd
  · simp at hd
  · split at hd
    · simp at hd
    · split at hd
      · simp at hd
      · split at hd
        · simp at hd
        · split at hd
          · simp at hd
          · simp only [Prod.mk.injEq] at hd
            have hex : existsVersion s v = true := by
              by_contra hno
              simp_all
            rw [← hd.2]
            rw [existsVersion, List.any_eq_true] at hex
            obtain ⟨e, he, heq2⟩ := hex
            apply List.length_filter_lt_length_iff_exists.mpr
            exact ⟨e, he, by simp_all⟩

/-- Loop of `prune_iterations`: while more than `n` versions are listed,
compare the oldest with the current version (either lookup can raise),
refuse when they are equal, otherwise delete the oldest and repeat.  Each
successful `delete` removes a directory entry, which bounds the recursion. -/
def prune_iter_loop (s : JungleState) (n : Int) : Except Err Unit × JungleState :=
  if ((versions s).length : Int) > n then
    match oldest s with
    | .error e => (.error e, s)
    | .ok ov =>
      match check_current s with
      | .error e => (.error e, s)
      | .ok cv =>
        if svCmp ov cv = Ordering.eq then (.error .cannotDeleteCurrent, s)
        else
          match hd : delete s ov with
          | (.ok _, s2) => prune_iter_loop s2 n
          | (.error e, s2) => (.error e, s2)
  else (.ok (), s)
termination_by s.release.length
decreasing_by exact delete_ok_shrink hd

/-- `Jungle.prune_iterations`. -/
def prune_iterations (s : JungleState) (n : Int) : Except Err Unit × JungleState :=
  match check_current s with
  | .error e => (.error e, s)
  | .ok _ => prune_iter_loop s n

end Jungle

namespace Jungle

/-! ## Support lemmas -/

/-- A state with some release entries removed (all other paths untouched),
the shape every deletion produces. -/
def filterState (s : JungleState) (P : String × Int → Bool) : JungleState :=
  { s with release := s.release.filter P }

theorem check_ok_iff {s : JungleState} {cv : StrictVersion} :
    check_current s = .ok cv ↔
      ∃ t, s.current = some (.symlink t) ∧ targetExists s t = true ∧
        strTake t 8 = "release/" ∧ parseVersion (strDrop t 8) = some cv ∧
        existsVersion s cv = true := by
  unfold check_current
  constructor
  · intro h
    split at h
    · exact Except.noConfusion h
    · exact Except.noConfusion h
    · rename_i t heq
      refine ⟨t, heq, ?_⟩
      split at h
      · exact Except.noConfusion h
      · rename_i hc1
        split at h
        · exact Except.noConfusion h
        · rename_i hc2
          split at h
          · exact Except.noConfusion h
          · rename_i version hparse
            split at h
            · rename_i hany
              injection h with hv
              subst hv
              exact ⟨by simpa using hc1, by simpa using hc2, hparse, hany⟩
            · exact Except.noConfusion h
  · rintro ⟨t, hcur, htgt, htake, hparse, hex⟩
    unfold existsVersion at hex
    simp [hcur, htgt, htake, hparse, hex]

theorem check_ok_currentExists {s : JungleState} {cv : StrictVersion}
    (h : check_current s = .ok cv) : currentExists s = true := by
  rw [check_ok_iff] at h
  obtain ⟨t, hcur, htgt, _⟩ := h
  simp [currentExists, hcur, htgt]

theorem targetExists_filter {s : JungleState} {t : String} {P : String × Int → Bool}
    (h : targetExists s t = true)
    (hkeep : ∀ e ∈ s.release, e.1 = strDrop t 8 → P e = true) :
    targetExists (filterState s P) t = true := by
  unfold targetExists at h ⊢
  split_ifs at h ⊢ with h1
  · rfl
  · rw [List.any_eq_true] at h
    obtain ⟨e, he, heq⟩ := h
    rw [List.any_eq_true]
    have hname : e.1 = strDrop t 8 := by simpa using heq
    refine ⟨e, ?_, heq⟩
    show e ∈ List.filter P s.release
    rw [List.mem_filter]
    exact ⟨he, hkeep e he hname⟩

theorem existsVersion_filter {s : JungleState} {v : StrictVersion} {P : String × Int → Bool}
    (h : existsVersion s v = true)
    (hkeep : ∀ e ∈ s.release, e.1 = v.str → P e = true) :
    existsVersion (filterState s P) v = true := by
  unfold existsVersion at h ⊢
  rw [List.any_eq_true] at h
  obtain ⟨e, he, heq⟩ := h
  rw [List.any_eq_true]
  have hname : e.1 = v.str := by simpa using heq
  refine ⟨e, ?_, heq⟩
  show e ∈ List.filter P s.release
  rw [List.mem_filter]
  exact ⟨he, hkeep e he hname⟩

/-- Removing release entries other than the link target and the canonical
current directory leaves `check_current` intact. -/
theorem check_current_filter {s : JungleState} {cv : StrictVersion} {P : String × Int → Bool}
    (hck : check_current s = .ok cv)
    (hkeep : ∀ e ∈ s.release,
      ((∃ t, s.current = some (.symlink t) ∧ e.1 = strDrop t 8) ∨ e.1 = cv.str) → P e = true) :
    check_current (filterState s P) = .ok cv := by
  rw [check_ok_iff] at hck ⊢
  obtain ⟨t, hcur, htgt, htake, hparse, hex⟩ := hck
  refine ⟨t, hcur, ?_, htake, hparse, ?_⟩
  · exact targetExists_filter htgt (fun e he hname => hkeep e he (Or.inl ⟨t, hcur, hname⟩))
  · exact existsVersion_filter hex (fun e he hname => hkeep e he (Or.inr hname))

theorem strTake_release_append (x : String) : strTake ("release/" ++ x) 8 = "release/" := by
  unfold strTake
  rw [data_append]
  have h8 : (8 : Nat) = ("release/" : String).data.length := rfl
  rw [h8, List.take_left]

theorem strDrop_release_append (x : String) : strDrop ("release/" ++ x) 8 = x := by
  unfold strDrop
  rw [data_append]
  have h8 : (8 : Nat) = ("release/" : String).data.length := rfl
  rw [h8, List.drop_left]

theorem release_append_ne (x : String) : ("release/" ++ x == "release") = false := by
  rw [beq_eq_false_iff_ne]
  intro h
  have hd : ("release/" ++ x).data = ("release" : String).data := by rw [h]
  rw [data_append] at hd
  have hlen := congrArg List.length hd
  simp [List.length_append] at hlen

/-- The state `_set` produces on success. -/
def setState (s : JungleState) (v : StrictVersion) : JungleState :=
  { s with current := some (.symlink ("release/" ++ v.str)), currentNew := none }

theorem targetExists_setState {s : JungleState} (v : StrictVersion)
    (hex : existsVersion s v = true) :
    targetExists (setState s v) ("release/" ++ v.str) = true := by
  unfold targetExists
  simp only [release_append_ne, Bool.false_eq_true, if_false, strTake_release_append,
    strDrop_release_append, beq_self_eq_true, if_true]
  unfold existsVersion at hex
  exact hex

theorem check_setState {s : JungleState} (v : StrictVersion)
    (hex : existsVersion s v = true) :
    check_current (setState s v) = .ok v := by
  rw [check_ok_iff]
  exact ⟨"release/" ++ v.str, rfl, targetExists_setState v hex, strTake_release_append _,
    by rw [strDrop_release_append]; exact parse_str v, hex⟩

theorem _set_ok {s : JungleState} (v : StrictVersion)
    (hex : existsVersion s v = true) (hnew : s.currentNew = none) :
    _set s v = (.ok (), setState s v) := by
  unfold _set
  rw [hex, hnew]
  rfl

theorem set_ok {s : JungleState} {cv : StrictVersion} (v : StrictVersion)
    (hck : check_current s = .ok cv) (hex : existsVersion s v = true)
    (hnew : s.currentNew = none) :
    set s v = (.ok v, setState s v) ∧ check_current (setState s v) = .ok v := by
  refine ⟨?_, check_setState v hex⟩
  unfold set
  rw [hck, check_ok_currentExists hck, _set_ok v hex hnew]
  rfl

theorem delete_ok_eq {s : JungleState} {v cv : StrictVersion}
    (hck : check_current s = .ok cv) (hex : existsVersion s v = true)
    (hne : ¬ svCmp v cv = Ordering.eq) :
    delete s v = (.ok (), filterState s (fun e => ! (e.1 == v.str))) := by
  unfold delete
  simp only [hck, hex, check_ok_currentExists hck, Bool.not_true, Bool.false_eq_true,
    if_false, if_neg hne]
  rfl

/-- `delete(current())` always takes the `Will not delete current version`
branch: validation guarantees the canonical directory exists, so the
`KeyError` branch is unreachable for the current version. -/
theorem delete_current_eq {s : JungleState} {cv : StrictVersion}
    (hck : check_current s = .ok cv) :
    delete s cv = (.error .cannotDeleteCurrent, s) := by
  obtain ⟨t, hcur, htgt, htake, hparse, hex⟩ := check_ok_iff.mp hck
  unfold delete
  simp only [hck, hex, check_ok_currentExists hck, Bool.not_true, Bool.false_eq_true, if_false]
  rw [if_pos ((svCmp_eq_iff cv cv).mpr rfl)]

/-- Everything `delete` can reach: an error leaving the state unchanged, or
the removal of exactly the entries named `str v`, guarded by the
current-version check. -/
theorem delete_state_cases {s : JungleState} {v : StrictVersion}
    {r : Except Err Unit} {s2 : JungleState} (h : delete s v = (r, s2)) :
    s2 = s ∨ ∃ cv, check_current s = .ok cv ∧ ¬ svCmp v cv = Ordering.eq ∧
      r = .ok () ∧ s2 = filterState s (fun e => ! (e.1 == v.str)) := by
  unfold delete at h
  split at h
  · left; injection h with _ h2; exact h2.symm
  · rename_i cv hck
    split at h
    · left; injection h with _ h2; exact h2.symm
    · split at h
      · left; injection h with _ h2; exact h2.symm
      · split at h
        · left; injection h with _ h2; exact h2.symm
        · rename_i cv2 hck2
          injection hck2 with hcveq
          subst hcveq
          split at h
          · left; injection h with _ h2; exact h2.symm
          · rename_i hne
            right
            injection h with h1 h2
            exact ⟨_, hck, hne, h1.symm, h2.symm⟩

/-- Neither a successful nor a failing `delete` touches `current`, and it
never invalidates a passing `check_current`. -/
theorem delete_preserves {s : JungleState} {cv v : StrictVersion}
    {r : Except Err Unit} {s2 : JungleState}
    (hck : check_current s = .ok cv) (h : delete s v = (r, s2)) :
    s2.current = s.current ∧ check_current s2 = .ok cv := by
  rcases delete_state_cases h with rfl | ⟨cv2, hck2, hne, hr, hs2⟩
  · exact ⟨rfl, hck⟩
  · rw [hck] at hck2
    injection hck2 with hcveq
    subst hcveq
    subst hs2
    refine ⟨rfl, ?_⟩
    apply check_current_filter hck
    intro e he hor
    obtain ⟨t2, hcur2, _, _, hparse2, _⟩ := check_ok_iff.mp hck
    rcases hor with ⟨t, hcur, hname⟩ | hname
    · rw [hcur] at hcur2
      injection hcur2 with ht
      injection ht with ht2
      subst ht2
      by_contra hP
      simp only [Bool.not_eq_true, Bool.not_eq_false] at hP
      have hname2 : e.1 = v.str := by simpa using hP
      rw [hname] at hname2
      rw [hname2, parse_str] at hparse2
      injection hparse2 with hvcv
      exact hne ((svCmp_eq_iff v cv).mpr hvcv)
    · by_contra hP
      simp only [Bool.not_eq_true, Bool.not_eq_false] at hP
      have hname2 : e.1 = v.str := by simpa using hP
      rw [hname] at hname2
      exact hne ((svCmp_eq_iff v cv).mpr (str_inj hname2.symm))

/-- The age-pruning loop never touches `current` and keeps `check_current`
passing, whatever it deletes and however it terminates. -/
theorem prune_age_loop_preserves {cv : StrictVersion} :
    ∀ (vs : List StrictVersion) (s : JungleState) (limit : Int)
      (r : Except Err Unit) (s2 : JungleState),
      check_current s = .ok cv → prune_age_loop s vs limit = (r, s2) →
      s2.current = s.current ∧ check_current s2 = .ok cv := by
  intro vs
  induction vs with
  | nil =>
    intro s limit r s2 hck h
    unfold prune_age_loop at h
    injection h with _ h2
    subst h2
    exact ⟨rfl, hck⟩
  | cons v rest ih =>
    intro s limit r s2 hck h
    unfold prune_age_loop at h
    simp only [hck] at h
    split at h
    · exact ih s limit r s2 hck h
    · split at h
      · injection h with _ h2; subst h2; exact ⟨rfl, hck⟩
      · split at h
        · split at h
          · rename_i s3 hdel
            obtain ⟨hc1, hc2⟩ := delete_preserves hck hdel
            obtain ⟨hc3, hc4⟩ := ih s3 limit r s2 hc2 h
            exact ⟨by rw [hc3, hc1], hc4⟩
          · rename_i e s3 hdel
            injection h with h1 h2
            subst h2
            exact delete_preserves hck hdel
        · exact ih s limit r s2 hck h

theorem prune_age_preserves {s : JungleState} {cv : StrictVersion} {limit : Int}
    {r : Except Err Unit} {s2 : JungleState}
    (hck : check_current s = .ok cv) (h : prune_age s limit = (r, s2)) :
    s2.current = s.current ∧ check_current s2 = .ok cv := by
  unfold prune_age at h
  simp only [hck] at h
  exact prune_age_loop_preserves _ s limit r s2 hck h

/-- The iteration-pruning loop never touches `current` and keeps
`check_current` passing. -/
theorem prune_iter_loop_preserves {cv : StrictVersion} :
    ∀ (s : JungleState) (n : Int) (r : Except Err Unit) (s2 : JungleState),
      check_current s = .ok cv → prune_iter_loop s n = (r, s2) →
      s2.current = s.current ∧ check_current s2 = .ok cv := by
  intro s n
  induction s, n using prune_iter_loop.induct with
  | case1 s n hgt e hov =>
    intro r s2 hck h
    unfold prune_iter_loop at h
    simp only [if_pos hgt, hov] at h
    injection h with h1 h2
    subst h2
    exact ⟨rfl, hck⟩
  | case2 s n hgt ov hov e hck2 =>
    intro r s2 hck h
    rw [hck] at hck2
    exact Except.noConfusion hck2
  | case3 s n hgt ov hov cv2 hck2 heq =>
    intro r s2 hck h
    unfold prune_iter_loop at h
    simp only [if_pos hgt, hov, hck2, if_pos heq] at h
    injection h with h1 h2
    subst h2
    exact ⟨rfl, hck⟩
  | case4 s n hgt ov hov cv2 hck2 hne u s3 hdel ih =>
    intro r s2 hck h
    unfold prune_iter_loop at h
    simp only [if_pos hgt, hov, hck2, if_neg hne] at h
    split at h
    · rename_i u2 s4 hdel2
      rw [hdel] at hdel2
      injection hdel2 with hd1 hd2
      subst hd2
      obtain ⟨hc1, hc2⟩ := delete_preserves hck hdel
      obtain ⟨hc3, hc4⟩ := ih r s2 hc2 h
      exact ⟨by rw [hc3, hc1], hc4⟩
    · rename_i e2 s4 hdel2
      rw [hdel] at hdel2
      exact absurd (congrArg Prod.fst hdel2) (by simp)
  | case5 s n hgt ov hov cv2 hck2 hne e s3 hdel =>
    intro r s2 hck h
    unfold prune_iter_loop at h
    simp only [if_pos hgt, hov, hck2, if_neg hne] at h
    split at h
    · rename_i u2 s4 hdel2
      rw [hdel] at hdel2
      exact absurd (congrArg Prod.fst hdel2) (by simp)
    · rename_i e2 s4 hdel2
      rw [hdel] at hdel2
      injection hdel2 with hd1 hd2
      subst hd2
      injection h with h1 h2
      subst h2
      exact delete_preserves hck hdel
  | case6 s n hle =>
    intro r s2 hck h
    unfold prune_iter_loop at h
    rw [if_neg hle] at h
    injection h with _ h2
    subst h2
    exact ⟨rfl, hck⟩

theorem prune_iterations_preserves {s : JungleState} {cv : StrictVersion} {n : Int}
    {r : Except Err Unit} {s2 : JungleState}
    (hck : check_current s = .ok cv) (h : prune_iterations s n = (r, s2)) :
    s2.current = s.current ∧ check_current s2 = .ok cv := by
  unfold prune_iterations at h
  simp only [hck] at h
  exact prune_iter_loop_preserves s n r s2 hck h

/-! ## Concrete states used by witnesses and counterexamples -/

/-- Version `1.0`. -/
def exV10 : StrictVersion := ⟨1, 0, 0, none⟩

/-- Version `2.0`. -/
def exV20 : StrictVersion := ⟨2, 0, 0, none⟩

/-- A plain initialized jungle: `release/{1.0,2.0}`, `current -> release/2.0`. -/
def exState : JungleState :=
  { release := [("1.0", 0), ("2.0", 0)],
    current := some (.symlink "release/2.0"), currentNew := none, now := 0 }

/-- Same, but the lower version lives in a non-canonically named directory
`release/1.0.0` (which parses as version `1.0`). -/
def exMixedState : JungleState :=
  { release := [("1.0.0", 0), ("2.0", 0)],
    current := some (.symlink "release/2.0"), currentNew := none, now := 0 }

/-- An initialized jungle with a stale `current.new` left by an interrupted
operation. -/
def exStaleState : JungleState :=
  { release := [("1.0", 0), ("2.0", 0)],
    current := some (.symlink "release/1.0"),
    currentNew := some (.symlink "release/9.9"), now := 0 }

/-- `current -> release/1.0.0` with only `release/1.0.0` on disk: every
`os.path` probe passes but the canonical directory `release/1.0` is absent,
reaching the broken `raise` on line 145. -/
def exTypeErr : JungleState :=
  { release := [("1.0.0", 0)],
    current := some (.symlink "release/1.0.0"), currentNew := none, now := 0 }

/-- `current -> release/9.9` with no such directory: a dangling pointer. -/
def exDangling : JungleState :=
  { release := [("1.0", 0)],
    current := some (.symlink "release/9.9"), currentNew := none, now := 0 }

/-- Entries whose name order disagrees with version order. -/
def exOrder : JungleState :=
  { release := [("10.0", 0), ("2.0", 0)],
    current := some (.symlink "release/2.0"), currentNew := none, now := 0 }

/-- A release listing with no parseable version. -/
def exEmpty : JungleState :=
  { release := [("bin", 0)], current := none, currentNew := none, now := 0 }

/-! ## The claims -/

/-- C1: for an initialized jungle whose current pointer validates,
`delete(current)` fails with the `Will not delete current version` error and
changes nothing, and no `delete`, `prune_age` or `prune_iterations` call —
whatever its arguments and however it terminates — moves `current` or removes
a release directory it points to: afterwards the pointer is unchanged and
still validates to the same version (validation includes existence of both
the link target and the canonical `release/<str cv>` directory). -/
theorem c1_current_never_removed (s : JungleState) (cv : StrictVersion)
    (hck : check_current s = .ok cv) :
    delete s cv = (.error .cannotDeleteCurrent, s) ∧
    (∀ v r s2, delete s v = (r, s2) →
      s2.current = s.current ∧ check_current s2 = .ok cv) ∧
    (∀ limit r s2, prune_age s limit = (r, s2) →
      s2.current = s.current ∧ check_current s2 = .ok cv) ∧
    (∀ n r s2, prune_iterations s n = (r, s2) →
      s2.current = s.current ∧ check_current s2 = .ok cv) := by
  refine ⟨delete_current_eq hck, ?_, ?_, ?_⟩
  · intro v r s2 h
    exact delete_preserves hck h
  · intro limit r s2 h
    exact prune_age_preserves hck h
  · intro n r s2 h
    exact prune_iterations_preserves hck h

theorem c1_witness :
    check_current exState = .ok exV20 ∧
    delete exState exV20 = (.error .cannotDeleteCurrent, exState) :=
  ⟨by decide, (c1_current_never_removed exState exV20 (by decide)).1⟩

/-- C2 counterexample: with entries `10.0` and `2.0` the listing's
lexicographic order is `["10.0", "2.0"]`, so `versions()` yields
`[10.0, 2.0]` — not ascending version order, since `2.0 < 10.0`. -/
theorem c2_counterexample :
    versions exOrder = [⟨10, 0, 0, none⟩, ⟨2, 0, 0, none⟩] ∧
    svCmp ⟨2, 0, 0, none⟩ ⟨10, 0, 0, none⟩ = .lt ∧
    ¬ List.Pairwise svle (versions exOrder) := by
  decide

/-- C2 amended: `versions()` returns exactly the parseable entries — every
version exactly as often as a listed name parses to it, unparseable names
silently discarded — but in ascending lexicographic order of the directory
names, which need not be ascending version order. -/
theorem c2_versions_name_order (s : JungleState) :
    (∃ ns, ns.Perm (names s) ∧ List.Pairwise strle ns ∧
      versions s = ns.filterMap parseVersion) ∧
    (versions s).Perm ((names s).filterMap parseVersion) ∧
    (∀ v, v ∈ versions s ↔ ∃ nm ∈ names s, parseVersion nm = some v) := by
  refine ⟨⟨sortedNames s, List.perm_insertionSort _ _, List.sorted_insertionSort _ _, rfl⟩,
    (List.perm_insertionSort strle (names s)).filterMap _, ?_⟩
  intro v
  unfold versions sortedNames
  rw [List.mem_filterMap]
  constructor
  · rintro ⟨nm, hnm, hp⟩
    exact ⟨nm, (List.mem_insertionSort strle).mp hnm, hp⟩
  · rintro ⟨nm, hnm, hp⟩
    exact ⟨nm, (List.mem_insertionSort strle).mpr hnm, hp⟩

/-- C3 counterexample: on a release listing with no parseable version,
`head()` and `oldest()` both fail, but with different exception classes:
`ValueError` (from `max()` on an empty sequence) versus `IndexError` (from
`sorted(...)[0]`), not one shared kind. -/
theorem c3_counterexample :
    head exEmpty = .error .emptyMax ∧ oldest exEmpty = .error .emptyIndex ∧
    Err.pyExc .emptyMax = .valueError ∧ Err.pyExc .emptyIndex = .indexError ∧
    Err.pyExc .emptyMax ≠ Err.pyExc .emptyIndex := by
  refine ⟨by decide, by decide, rfl, rfl, by decide⟩

/-- C3 amended: on an empty version set `head()` and `oldest()` both fail,
but with distinct error kinds — `head` with the `ValueError` of `max()` on an
empty sequence, `oldest` with the `IndexError` of indexing an empty list. -/
theorem c3_empty_fail_kinds (s : JungleState) (h : versions s = []) :
    head s = .error .emptyMax ∧ oldest s = .error .emptyIndex ∧
    Err.pyExc .emptyMax ≠ Err.pyExc .emptyIndex := by
  refine ⟨?_, ?_, by decide⟩
  · unfold head
    rw [h]
  · unfold oldest sortedVersions
    rw [h]
    rfl

theorem c3_witness :
    versions exEmpty = [] ∧ head exEmpty = .error .emptyMax :=
  ⟨by decide, (c3_empty_fail_kinds exEmpty (by decide)).1⟩

/-- C4 counterexample: with a stale `current.new` present and the requested
version directory existing, `_set` fails with the `EEXIST` error from
`os.symlink` and changes nothing — it does not overwrite the stale link. -/
theorem c4_counterexample :
    exStaleState.currentNew.isSome = true ∧
    existsVersion exStaleState exV20 = true ∧
    _set exStaleState exV20 = (.error .eexistError, exStaleState) ∧
    set exStaleState exV20 = (.error .eexistError, exStaleState) := by
  decide

/-- C4 amended: a stale `current.new` makes the next pointer-set attempt
fail rather than overwrite: `_set` raises `KeyError` if the version directory
is missing and otherwise the `EEXIST` `OSError` from `os.symlink`, leaving
the state unchanged; on a validated jungle with the version present, `set`
fails the same way. -/
theorem c4_stale_current_new (s : JungleState) (v : StrictVersion)
    (hstale : s.currentNew.isSome = true) :
    _set s v = (.error (if existsVersion s v then .eexistError else .keyError), s) ∧
    (∀ cv, check_current s = .ok cv → existsVersion s v = true →
      set s v = (.error .eexistError, s)) := by
  have hmain :
      _set s v = (.error (if existsVersion s v then .eexistError else .keyError), s) := by
    unfold _set
    cases hex : existsVersion s v with
    | false => simp [hex]
    | true => simp [hex, hstale]
  refine ⟨hmain, ?_⟩
  intro cv hck hex
  unfold set
  rw [hck, check_ok_currentExists hck, hmain]
  simp [hex]

theorem c4_witness :
    exStaleState.currentNew.isSome = true ∧
    _set exStaleState exV10 =
      (.error (if existsVersion exStaleState exV10 then .eexistError else .keyError),
        exStaleState) :=
  ⟨by decide, (c4_stale_current_new exStaleState exV10 (by decide)).1⟩

/-- C5 counterexample: version `1.0` is yielded by `versions()` (parsed from
directory `1.0.0`), the current pointer validates, yet `set(1.0)` fails with
the `KeyError` (`UnknownVersion`): `_set` probes `release/1.0`, which does
not exist. -/
theorem c5_counterexample :
    exV10 ∈ versions exMixedState ∧
    check_current exMixedState = .ok exV20 ∧
    exMixedState.currentNew = none ∧
    set exMixedState exV10 = (.error .keyError, exMixedState) := by
  refine ⟨by decide, by decide, rfl, by decide⟩

/-- C5 amended: the round trip holds for versions whose canonical directory
is present: if the jungle validates, `release/<str v>` is listed (that is,
`exists(v)` holds — which is stronger than `v ∈ versions()` when directory
names are non-canonical) and no stale `current.new` is in the way, then
`set(v)` succeeds and the subsequent `current()` re-validation returns `v`. -/
theorem c5_set_roundtrip (s : JungleState) (cv v : StrictVersion)
    (hck : check_current s = .ok cv) (hex : existsVersion s v = true)
    (hnew : s.currentNew = none) :
    v ∈ versions s ∧
    ∃ s2, set s v = (.ok v, s2) ∧ check_current s2 = .ok v := by
  obtain ⟨hset, hchk⟩ := set_ok v hck hex hnew
  refine ⟨?_, setState s v, hset, hchk⟩
  unfold existsVersion at hex
  rw [List.any_eq_true] at hex
  obtain ⟨e, he, heq⟩ := hex
  unfold versions sortedNames
  rw [List.mem_filterMap]
  refine ⟨e.1, ?_, ?_⟩
  · rw [List.mem_insertionSort]
    exact List.mem_map_of_mem Prod.fst he
  · have hname : e.1 = v.str := by simpa using heq
    rw [hname]
    exact parse_str v

theorem c5_witness :
    check_current exState = .ok exV20 ∧ existsVersion exState exV10 = true ∧
    exState.currentNew = none ∧ exV10 ∈ versions exState :=
  ⟨by decide, by decide, rfl,
    (c5_set_roundtrip exState exV20 exV10 (by decide) (by decide) rfl).1⟩

/-- C8: the dangling-pointer check is broken twice over.  With
`current -> release/1.0.0` and only `release/1.0.0` on disk, the first four
checks pass but the directory check on the canonical path fails, and line
145's `OSError("..." % current)` raises `TypeError` (mismatched format
string) instead of a reportable dangling-pointer error; with a plainly
dangling `current -> release/9.9`, `os.path.exists` follows the link and the
failure is (mis)reported by the first check as the `No current exists` error,
not as a distinct fifth kind. -/
theorem c8_dangling_typeerror :
    check_current exTypeErr = .error .typeErrorFmt ∧
    Err.pyExc .typeErrorFmt = .typeError ∧
    check_current exDangling = .error .noCurrent ∧
    Err.pyExc .noCurrent = .osError := by
  refine ⟨by decide, rfl, by decide, rfl⟩

/-- C10: versions are handled through their canonical string form.  A
release directory `nm` that parses as `v` but is not named `str v` (and no
directory carries the canonical name) is yielded by `versions()`, while
`exists(v)` is false — the path probe uses the canonical name — and `set(v)`
on a validated jungle therefore fails with the `KeyError` (`UnknownVersion`),
even though the directory is present in `release/`. -/
theorem c10_canonical_lookup (s : JungleState) (nm : String) (mt : Int)
    (v : StrictVersion)
    (hmem : (nm, mt) ∈ s.release) (hparse : parseVersion nm = some v)
    (hnc : v.str ∉ names s) :
    v ∈ versions s ∧ existsVersion s v = false ∧
    (∀ cv, check_current s = .ok cv → set s v = (.error .keyError, s)) := by
  have hex : existsVersion s v = false := by
    unfold existsVersion
    rw [Bool.eq_false_iff]
    intro hc
    rw [List.any_eq_true] at hc
    obtain ⟨e, he, heq⟩ := hc
    apply hnc
    have hname : e.1 = v.str := by simpa using heq
    rw [← hname]
    exact List.mem_map_of_mem Prod.fst he
  refine ⟨?_, hex, ?_⟩
  · unfold versions sortedNames
    rw [List.mem_filterMap]
    refine ⟨nm, ?_, hparse⟩
    rw [List.mem_insertionSort]
    exact List.mem_map_of_mem Prod.fst hmem
  · intro cv hck
    unfold set
    rw [hck, check_ok_currentExists hck]
    unfold _set
    rw [hex]
    rfl

theorem c10_witness :
    ("1.0.0", (0 : Int)) ∈ exMixedState.release ∧
    parseVersion "1.0.0" = some exV10 ∧
    exV10 ∈ versions exMixedState ∧ existsVersion exMixedState exV10 = false :=
  ⟨by decide, by decide,
    (c10_canonical_lookup exMixedState "1.0.0" 0 exV10 (by decide) (by decide) (by decide)).1,
    (c10_canonical_lookup exMixedState "1.0.0" 0 exV10 (by decide) (by decide) (by decide)).2.1⟩

/-- C9 counterexample: a jungle with two versions (`1.0` via directory
`1.0.0`, and `2.0`) where the dry run reports `1.0` but the immediately
following real `degrade()` on the same state sets nothing: its inner
`set(1.0)` fails with the `KeyError`, because the candidate's canonical
directory `release/1.0` does not exist. -/
theorem c9_counterexample :
    (versions exMixedState).length = 2 ∧
    degrade exMixedState true = (.ok "1.0", exMixedState) ∧
    degrade exMixedState false = (.error .keyError, exMixedState) := by
  refine ⟨by decide, by decide, by decide⟩

/-- C9 amended: on a validated jungle whose version listing has at least two
entries, whose candidate `sorted(versions)[-2]` has its canonical directory
present, and with no stale `current.new`, `degrade(dryRun=true)` mutates
nothing and returns exactly the version string that `degrade(dryRun=false)`
then applies (after which `current` validates to the candidate); with fewer
than two listed versions `degrade` fails with the
`Not enough versions to rollback` `ValueError`. -/
theorem c9_degrade_dryrun (s : JungleState) :
    (∀ cv prev, check_current s = .ok cv →
      (List.insertionSort svle (versions s))[(versions s).length - 2]? = some prev →
      2 ≤ (versions s).length →
      existsVersion s prev = true → s.currentNew = none →
      degrade s true = (.ok prev.str, s) ∧
      degrade s false = (.ok prev.str, setState s prev) ∧
      check_current (setState s prev) = .ok prev) ∧
    (∀ cv d, check_current s = .ok cv → (versions s).length < 2 →
      degrade s d = (.error .notEnoughVersions, s)) := by
  constructor
  · intro cv prev hck hprev hlen hex hnew
    obtain ⟨hset, hchk⟩ := set_ok prev hck hex hnew
    refine ⟨?_, ?_, hchk⟩
    · unfold degrade
      rw [hck]
      simp only [if_neg (by omega : ¬ (versions s).length < 2), hprev]
      rfl
    · unfold degrade
      rw [hck]
      simp only [if_neg (by omega : ¬ (versions s).length < 2), hprev, hset]
      rfl
  · intro cv d hck hlt
    unfold degrade
    rw [hck]
    simp only [if_pos hlt]

theorem c9_witness :
    check_current exState = .ok exV20 ∧
    (List.insertionSort svle (versions exState))[(versions exState).length - 2]? = some exV10 ∧
    degrade exState true = (.ok exV10.str, exState) ∧
    degrade exState false = (.ok exV10.str, setState exState exV10) :=
  ⟨by decide, by decide,
    ((c9_degrade_dryrun exState).1 exV20 exV10 (by decide) (by decide) (by decide)
      (by decide) rfl).1,
    ((c9_degrade_dryrun exState).1 exV20 exV10 (by decide) (by decide) (by decide)
      (by decide) rfl).2.1⟩

/-! ## Canonical states and pruning infrastructure

Both pruning characterizations assume a canonically named jungle: every
parseable directory name is the canonical form of its version, and the
listing has no duplicate names (a filesystem invariant).  Directory names
like `1.0.0` or `01.2` violate the first assumption and make pruning abort
with a `KeyError` or stat failure partway (compare C5/C10). -/

/-- Every parseable entry name is in canonical form. -/
def canonicalNames (s : JungleState) : Bool :=
  s.release.all (fun e =>
    match parseVersion e.1 with
    | none => true
    | some v => v.str == e.1)

/-- The state after `shutil.rmtree`-ing the canonical directories of the
versions in `del`. -/
def rmNames (s : JungleState) (del : List StrictVersion) : JungleState :=
  filterState s (fun e => del.all (fun w => ! (w.str == e.1)))

theorem canonicalNames_spec {s : JungleState} (h : canonicalNames s = true) :
    ∀ nm ∈ names s, ∀ v, parseVersion nm = some v → v.str = nm := by
  intro nm hnm v hp
  unfold names at hnm
  rw [List.mem_map] at hnm
  obtain ⟨e, he, hfst⟩ := hnm
  unfold canonicalNames at h
  rw [List.all_eq_true] at h
  have := h e he
  rw [hfst] at this
  rw [hp] at this
  simpa using this

theorem listLe_lt_trans {l m k : List Nat} (h1 : listLe l m) (h2 : listCmp m k = .lt) :
    listCmp l k = .lt := by
  unfold listLe at h1
  rcases hlm : listCmp l m with _ | _ | _
  · exact listCmp_lt_trans hlm h2
  · rw [listCmp_eq_iff] at hlm; subst hlm; exact h2
  · exact absurd hlm h1

theorem svle_lt_trans {a b c : StrictVersion} (h1 : svle a b) (h2 : svCmp b c = .lt) :
    svCmp a c = .lt :=
  listLe_lt_trans h1 h2

/-- `filterMap parseVersion` commutes with a name filter on canonically
named listings. -/
theorem filterMap_parse_filter (l : List String) (q : String → Bool)
    (hcanon : ∀ nm ∈ l, ∀ v, parseVersion nm = some v → v.str = nm) :
    (l.filter q).filterMap parseVersion
      = (l.filterMap parseVersion).filter (fun v => q v.str) := by
  induction l with
  | nil => rfl
  | cons nm rest ih =>
    have hcr : ∀ nm2 ∈ rest, ∀ v, parseVersion nm2 = some v → v.str = nm2 :=
      fun nm2 h2 => hcanon nm2 (by simp [h2])
    have hcn : ∀ v, parseVersion nm = some v → v.str = nm :=
      fun v hv => hcanon nm (by simp) v hv
    by_cases hq : q nm = true
    · rw [List.filter_cons_of_pos hq, List.filterMap_cons, List.filterMap_cons]
      cases hp : parseVersion nm with
      | none => exact ih hcr
      | some v =>
        rw [List.filter_cons_of_pos (by rw [hcn v hp]; exact hq), ih hcr]
    · rw [List.filter_cons_of_neg hq, List.filterMap_cons]
      cases hp : parseVersion nm with
      | none => exact ih hcr
      | some v =>
        rw [List.filter_cons_of_neg (by rw [hcn v hp]; exact hq), ih hcr]

theorem map_fst_filter_name (l : List (String × Int)) (q : String → Bool) :
    (l.filter (fun e => q e.1)).map Prod.fst = (l.map Prod.fst).filter q := by
  induction l with
  | nil => rfl
  | cons e rest ih =>
    by_cases hq : q e.1 = true
    · simp [List.filter_cons, hq, ih]
    · simp [List.filter_cons, hq, ih]

/-- A canonically named duplicate-free listing parses to a duplicate-free
version list. -/
theorem nodup_filterMap_parse (l : List String)
    (hcanon : ∀ nm ∈ l, ∀ v, parseVersion nm = some v → v.str = nm)
    (hnd : l.Nodup) : (l.filterMap parseVersion).Nodup := by
  induction l with
  | nil => simp
  | cons nm rest ih =>
    rw [List.nodup_cons] at hnd
    obtain ⟨hnotin, hndr⟩ := hnd
    have hcr : ∀ nm2 ∈ rest, ∀ v, parseVersion nm2 = some v → v.str = nm2 :=
      fun nm2 h2 => hcanon nm2 (by simp [h2])
    rw [List.filterMap_cons]
    cases hp : parseVersion nm with
    | none => exact ih hcr hndr
    | some v =>
      rw [List.nodup_cons]
      refine ⟨?_, ih hcr hndr⟩
      intro hvmem
      rw [List.mem_filterMap] at hvmem
      obtain ⟨nm2, hnm2, hp2⟩ := hvmem
      have h1 : v.str = nm := hcanon nm (by simp) v hp
      have h2 : v.str = nm2 := hcr nm2 hnm2 v hp2
      exact hnotin (by rw [← h1, h2]; exact hnm2)

/-- On a duplicate-free list, filtering out the members of `l.take i`
leaves exactly `l.drop i`. -/
theorem filter_not_mem_take {α : Type} [DecidableEq α] :
    ∀ (l : List α) (i : Nat), l.Nodup →
      l.filter (fun x => (l.take i).all (fun w => ! (w == x))) = l.drop i := by
  intro l
  induction l with
  | nil => intro i _; simp
  | cons a rest ih =>
    intro i hnd
    rw [List.nodup_cons] at hnd
    obtain ⟨hnotin, hndr⟩ := hnd
    cases i with
    | zero => simp
    | succ j =>
      rw [List.take_succ_cons, List.drop_succ_cons]
      rw [List.filter_cons_of_neg (by simp)]
      have hcong : ∀ x ∈ rest,
          ((a :: rest.take j).all (fun w => ! (w == x)))
            = ((rest.take j).all (fun w => ! (w == x))) := by
        intro x hx
        rw [List.all_cons]
        have hax : (a == x) = false := by
          rw [beq_eq_false_iff_ne]
          intro h
          subst h
          exact hnotin hx
        rw [hax]
        simp
      rw [List.filter_congr hcong]
      exact ih j hndr

theorem rmNames_nil (s : JungleState) : rmNames s [] = s := by
  unfold rmNames filterState
  cases s with
  | mk rel cur curNew now => simp

theorem rmNames_release (s : JungleState) (del : List StrictVersion) :
    (rmNames s del).release
      = s.release.filter (fun e => del.all (fun w => ! (w.str == e.1))) := rfl

theorem str_beq (w v : StrictVersion) : (w.str == v.str) = (w == v) := by
  cases h : w == v with
  | true =>
    have heq : w = v := eq_of_beq h
    subst heq
    exact beq_self_eq_true _
  | false =>
    rw [beq_eq_false_iff_ne] at h
    rw [beq_eq_false_iff_ne]
    intro hc
    exact h (str_inj hc)

/-- Pruning deletions with the current version protected keep `check_current`
passing. -/
theorem check_rmNames {s : JungleState} {cv : StrictVersion} (del : List StrictVersion)
    (hck : check_current s = .ok cv)
    (hcanon : canonicalNames s = true)
    (hprot : ∀ w ∈ del, ¬ svCmp w cv = Ordering.eq) :
    check_current (rmNames s del) = .ok cv := by
  apply check_current_filter hck
  intro e he hor
  have hecv : e.1 = cv.str := by
    rcases hor with ⟨t, hcur, hname⟩ | hname
    · obtain ⟨t2, hcur2, _, _, hparse2, _⟩ := check_ok_iff.mp hck
      rw [hcur] at hcur2
      injection hcur2 with ht
      injection ht with ht2
      subst ht2
      have := canonicalNames_spec hcanon e.1 (List.mem_map_of_mem Prod.fst he) cv
        (by rw [hname]; exact hparse2)
      exact this.symm
    · exact hname
  rw [List.all_eq_true]
  intro w hw
  rw [hecv, Bool.not_eq_true', beq_eq_false_iff_ne]
  intro hws
  exact hprot w hw ((svCmp_eq_iff w cv).mpr (str_inj hws))

theorem versions_rmNames_perm {s : JungleState} (del : List StrictVersion)
    (hcanon : canonicalNames s = true) :
    (versions (rmNames s del)).Perm
      ((versions s).filter (fun v => del.all (fun w => ! (w == v)))) := by
  have hc := canonicalNames_spec hcanon
  have h2 : names (rmNames s del)
      = (names s).filter (fun nm => del.all (fun w => ! (w.str == nm))) := by
    unfold names
    rw [rmNames_release]
    exact map_fst_filter_name s.release (fun nm => del.all (fun w => ! (w.str == nm)))
  have h3 : (versions (rmNames s del)).Perm
      ((names (rmNames s del)).filterMap parseVersion) :=
    (List.perm_insertionSort strle _).filterMap _
  rw [h2, filterMap_parse_filter _ _ hc] at h3
  have h4 : ((names s).filterMap parseVersion).Perm (versions s) :=
    ((List.perm_insertionSort strle (names s)).filterMap parseVersion).symm
  have h6 := h3.trans (h4.filter _)
  simp only [str_beq] at h6
  exact h6

theorem existsVersion_rmNames {s : JungleState} {v : StrictVersion} (del : List StrictVersion)
    (hcanon : canonicalNames s = true)
    (hv : v ∈ versions s) (hnd : v ∉ del) :
    existsVersion (rmNames s del) v = true := by
  unfold versions sortedNames at hv
  rw [List.mem_filterMap] at hv
  obtain ⟨nm, hnm, hp⟩ := hv
  rw [List.mem_insertionSort] at hnm
  have hcn : v.str = nm := canonicalNames_spec hcanon nm hnm v hp
  unfold names at hnm
  rw [List.mem_map] at hnm
  obtain ⟨e, he, hfst⟩ := hnm
  unfold existsVersion
  rw [List.any_eq_true]
  refine ⟨e, ?_, by rw [hfst, ← hcn]; exact beq_self_eq_true _⟩
  rw [rmNames_release, List.mem_filter]
  refine ⟨he, ?_⟩
  rw [List.all_eq_true]
  intro w hw
  rw [Bool.not_eq_true', beq_eq_false_iff_ne]
  intro hws
  apply hnd
  have hwv : w = v := str_inj (by rw [hws, hfst, ← hcn])
  exact hwv ▸ hw

theorem delete_rmNames {s : JungleState} {cv : StrictVersion} (del : List StrictVersion)
    (v : StrictVersion)
    (hck : check_current s = .ok cv) (hcanon : canonicalNames s = true)
    (hprot : ∀ w ∈ del, ¬ svCmp w cv = Ordering.eq)
    (hv : v ∈ versions s) (hvd : v ∉ del) (hne : ¬ svCmp v cv = Ordering.eq) :
    delete (rmNames s del) v = (.ok (), rmNames s (del ++ [v])) := by
  have hck2 := check_rmNames del hck hcanon hprot
  have hex := existsVersion_rmNames del hcanon hv hvd
  have hfeq : s.release.filter
        (fun a => (! (a.1 == v.str)) && del.all (fun w => ! (w.str == a.1)))
      = s.release.filter (fun e => (del ++ [v]).all (fun w => ! (w.str == e.1))) := by
    apply List.filter_congr
    intro e _
    rw [List.all_append, List.all_cons, List.all_nil, Bool.and_true]
    rw [show (v.str == e.1) = (e.1 == v.str) from by
      cases h : e.1 == v.str with
      | true => rw [eq_of_beq h]; exact beq_self_eq_true _
      | false =>
        rw [beq_eq_false_iff_ne] at h
        rw [beq_eq_false_iff_ne]
        exact fun hc => h hc.symm]
    exact Bool.and_comm _ _
  rw [delete_ok_eq hck2 hex hne]
  unfold rmNames filterState
  simp only [List.filter_filter]
  rw [hfeq]

theorem find_name_unique : ∀ (l : List (String × Int)) (nm : String) (mt : Int),
    (l.map Prod.fst).Nodup → (nm, mt) ∈ l →
    l.find? (fun e => e.1 == nm) = some (nm, mt) := by
  intro l
  induction l with
  | nil => intro nm mt _ h; cases h
  | cons e rest ih =>
    intro nm mt hnd hmem
    rw [List.map_cons, List.nodup_cons] at hnd
    obtain ⟨hnotin, hndr⟩ := hnd
    rcases List.mem_cons.mp hmem with heq | hmem2
    · rw [← heq]
      rw [List.find?_cons_of_pos _ (by simp)]
    · have hne : (e.1 == nm) = false := by
        rw [beq_eq_false_iff_ne]
        intro hc
        apply hnotin
        rw [hc]
        exact List.mem_map_of_mem Prod.fst hmem2
      rw [List.find?_cons_of_neg _ (by simp [hne])]
      exact ih nm mt hndr hmem2

theorem age_rmNames {s : JungleState} {v : StrictVersion} {mt : Int} (del : List StrictVersion)
    (hnd : (names s).Nodup) (hmem : (v.str, mt) ∈ s.release) (hvd : v ∉ del) :
    age (rmNames s del) v = .ok (Int.div (s.now - mt) 86400) := by
  unfold age
  have hmem2 : (v.str, mt) ∈ (rmNames s del).release := by
    rw [rmNames_release, List.mem_filter]
    refine ⟨hmem, ?_⟩
    rw [List.all_eq_true]
    intro w hw
    rw [Bool.not_eq_true', beq_eq_false_iff_ne]
    intro hws
    exact hvd ((str_inj hws) ▸ hw)
  have hnd2 : ((rmNames s del).release.map Prod.fst).Nodup := by
    rw [rmNames_release,
      map_fst_filter_name s.release (fun nm => del.all (fun w => ! (w.str == nm)))]
    exact hnd.filter _
  rw [find_name_unique _ _ _ hnd2 hmem2]
  rfl

theorem sortedVersions_rmNames {s : JungleState} (del : List StrictVersion)
    (hcanon : canonicalNames s = true) :
    sortedVersions (rmNames s del)
      = (sortedVersions s).filter (fun v => del.all (fun w => ! (w == v))) := by
  apply List.eq_of_perm_of_sorted ?_ (List.sorted_insertionSort svle _) ?_
  · exact (List.perm_insertionSort svle _).trans
      ((versions_rmNames_perm del hcanon).trans
        (((List.perm_insertionSort svle (versions s)).symm).filter _))
  · exact (List.sorted_insertionSort svle (versions s)).filter _

theorem mem_versions_of_entry {s : JungleState} {e : String × Int} {v : StrictVersion}
    (he : e ∈ s.release) (hp : parseVersion e.1 = some v) : v ∈ versions s := by
  unfold versions sortedNames
  rw [List.mem_filterMap]
  exact ⟨e.1, (List.mem_insertionSort strle).mpr (List.mem_map_of_mem Prod.fst he), hp⟩

theorem versions_mem_entry {s : JungleState} {v : StrictVersion}
    (hcanon : canonicalNames s = true) (hv : v ∈ versions s) :
    ∃ mt, (v.str, mt) ∈ s.release := by
  unfold versions sortedNames at hv
  rw [List.mem_filterMap] at hv
  obtain ⟨nm, hnm, hp⟩ := hv
  rw [List.mem_insertionSort] at hnm
  have hcn : v.str = nm := canonicalNames_spec hcanon nm hnm v hp
  unfold names at hnm
  rw [List.mem_map] at hnm
  obtain ⟨e, he, hfst⟩ := hnm
  refine ⟨e.2, ?_⟩
  rw [hcn, ← hfst]
  simpa using he

theorem versions_nodup {s : JungleState} (hcanon : canonicalNames s = true)
    (hnd : (names s).Nodup) : (versions s).Nodup := by
  unfold versions sortedNames
  apply nodup_filterMap_parse
  · intro nm hnm v hp
    exact canonicalNames_spec hcanon nm ((List.mem_insertionSort strle).mp hnm) v hp
  · exact ((List.perm_insertionSort strle (names s)).nodup_iff).mpr hnd

/-- Whether `prune_age(limit)` deletes version `v`: not the current version
`cv` and strictly more than `limit` whole (truncated) days old, days read
from its canonical release entry. -/
def agedOut (s : JungleState) (cv : StrictVersion) (limit : Int) (v : StrictVersion) : Bool :=
  (! (decide (svCmp v cv = Ordering.eq))) &&
    (match s.release.find? (fun e => e.1 == v.str) with
     | none => false
     | some e => limit < Int.div (s.now - e.2) 86400)

theorem agedOut_prot {s : JungleState} {cv : StrictVersion} {limit : Int} :
    ∀ (done : List StrictVersion), ∀ w ∈ done.filter (agedOut s cv limit),
      ¬ svCmp w cv = Ordering.eq := by
  intro done w hw
  rw [List.mem_filter] at hw
  have h2 := hw.2
  unfold agedOut at h2
  rw [Bool.and_eq_true] at h2
  have h1 := h2.1
  rw [Bool.not_eq_true', decide_eq_false_iff_not] at h1
  exact h1

/-- The age-pruning loop over the `versions()` snapshot deletes exactly the
aged-out versions encountered so far. -/
theorem prune_age_loop_rm {s : JungleState} {cv : StrictVersion} {limit : Int}
    (hck : check_current s = .ok cv) (hcanon : canonicalNames s = true)
    (hnd : (names s).Nodup) :
    ∀ (rest done : List StrictVersion), versions s = done ++ rest →
      prune_age_loop (rmNames s (done.filter (agedOut s cv limit))) rest limit
        = (.ok (), rmNames s ((done ++ rest).filter (agedOut s cv limit))) := by
  intro rest
  induction rest with
  | nil =>
    intro done hsplit
    unfold prune_age_loop
    rw [List.append_nil]
  | cons v rest2 ih =>
    intro done hsplit
    have hvnd := versions_nodup hcanon hnd
    rw [hsplit, List.nodup_append] at hvnd
    obtain ⟨hnd1, hnd2, hdisj⟩ := hvnd
    have hvmem : v ∈ versions s := by rw [hsplit]; simp
    have hvnotdone : v ∉ done := fun hc => hdisj hc (by simp)
    have hvnotdel : v ∉ done.filter (agedOut s cv limit) :=
      fun hc => hvnotdone (List.mem_filter.mp hc).1
    have hck2 := check_rmNames _ hck hcanon (@agedOut_prot s cv limit done)
    unfold prune_age_loop
    simp only [hck2]
    by_cases hveq : svCmp v cv = Ordering.eq
    · rw [if_pos hveq]
      have hap : agedOut s cv limit v = false := by
        unfold agedOut
        rw [decide_eq_true hveq]
        rfl
      have hfe : (done ++ [v]).filter (agedOut s cv limit)
          = done.filter (agedOut s cv limit) := by
        rw [List.filter_append]
        simp [hap]
      have hih := ih (done ++ [v]) (by rw [hsplit]; simp)
      rw [hfe] at hih
      rw [hih]
      rw [show done ++ [v] ++ rest2 = done ++ v :: rest2 by simp]
    · obtain ⟨mt, hmt⟩ := versions_mem_entry hcanon hvmem
      have hfind : s.release.find? (fun e => e.1 == v.str) = some (v.str, mt) :=
        find_name_unique s.release v.str mt hnd hmt
      have hage := @age_rmNames s v mt (done.filter (agedOut s cv limit)) hnd hmt hvnotdel
      rw [if_neg hveq]
      simp only [hage]
      by_cases hgt : limit < Int.div (s.now - mt) 86400
      · rw [if_pos hgt]
        have hap : agedOut s cv limit v = true := by
          unfold agedOut
          rw [hfind, decide_eq_false hveq]
          simpa using hgt
        have hfe : (done ++ [v]).filter (agedOut s cv limit)
            = done.filter (agedOut s cv limit) ++ [v] := by
          rw [List.filter_append]
          simp [hap]
        have hdel := delete_rmNames (done.filter (agedOut s cv limit)) v hck hcanon
          (@agedOut_prot s cv limit done) hvmem hvnotdel hveq
        simp only [hdel]
        have hih := ih (done ++ [v]) (by rw [hsplit]; simp)
        rw [hfe] at hih
        rw [hih]
        rw [show done ++ [v] ++ rest2 = done ++ v :: rest2 by simp]
      · rw [if_neg hgt]
        have hap : agedOut s cv limit v = false := by
          unfold agedOut
          rw [hfind, decide_eq_false hveq]
          simpa using hgt
        have hfe : (done ++ [v]).filter (agedOut s cv limit)
            = done.filter (agedOut s cv limit) := by
          rw [List.filter_append]
          simp [hap]
        have hih := ih (done ++ [v]) (by rw [hsplit]; simp)
        rw [hfe] at hih
        rw [hih]
        rw [show done ++ [v] ++ rest2 = done ++ v :: rest2 by simp]

/-- The cumulative effect of age pruning, re-expressed entry-wise: an entry
survives iff its name is unparseable, or its version is current, or it is not
strictly older than the limit in truncated whole days. -/
theorem rmNames_aged_eq (s : JungleState) (cv : StrictVersion) (limit : Int)
    (hcanon : canonicalNames s = true) (hnd : (names s).Nodup) :
    rmNames s ((versions s).filter (agedOut s cv limit))
      = filterState s (fun e =>
          match parseVersion e.1 with
          | none => true
          | some v => decide (svCmp v cv = Ordering.eq)
              || ! (decide (limit < Int.div (s.now - e.2) 86400))) := by
  unfold rmNames filterState
  simp only [JungleState.mk.injEq]
  refine ⟨?_, trivial, trivial, trivial⟩
  apply List.filter_congr
  intro e he
  cases hp : parseVersion e.1 with
  | none =>
    simp only [hp]
    rw [List.all_eq_true]
    intro w hw
    rw [Bool.not_eq_true', beq_eq_false_iff_ne]
    intro hws
    rw [← hws, parse_str] at hp
    cases hp
  | some v =>
    have hcv : v.str = e.1 :=
      canonicalNames_spec hcanon e.1 (List.mem_map_of_mem Prod.fst he) v hp
    have hvmem : v ∈ versions s := mem_versions_of_entry he hp
    have he2 : (v.str, e.2) ∈ s.release := by
      rw [hcv]
      simpa using he
    have hfind := find_name_unique s.release v.str e.2 hnd he2
    simp only [hp]
    have hapv : agedOut s cv limit v
        = ((! decide (svCmp v cv = Ordering.eq))
            && decide (limit < Int.div (s.now - e.2) 86400)) := by
      unfold agedOut
      rw [hfind]
    by_cases hap : agedOut s cv limit v = true
    · have hleft : ((versions s).filter (agedOut s cv limit)).all
          (fun w => ! (w.str == e.1)) = false := by
        rw [← Bool.not_eq_true, List.all_eq_true]
        intro hall
        have := hall v (List.mem_filter.mpr ⟨hvmem, hap⟩)
        rw [hcv] at this
        simp at this
      rw [hleft]
      rw [hapv, Bool.and_eq_true] at hap
      obtain ⟨ha1, ha2⟩ := hap
      rw [Bool.not_eq_true'] at ha1
      rw [ha1, ha2]
      rfl
    · rw [Bool.not_eq_true] at hap
      have hleft : ((versions s).filter (agedOut s cv limit)).all
          (fun w => ! (w.str == e.1)) = true := by
        rw [List.all_eq_true]
        intro w hw
        rw [List.mem_filter] at hw
        rw [Bool.not_eq_true', beq_eq_false_iff_ne]
        intro hws
        have hwv : w = v := str_inj (by rw [hws, hcv])
        rw [hwv, hap] at hw
        cases hw.2
      rw [hleft]
      rw [hapv] at hap
      cases hde : decide (svCmp v cv = Ordering.eq) <;>
        cases hlt : decide (limit < Int.div (s.now - e.2) 86400) <;>
        rw [hde, hlt] at hap <;> simp_all

/-- C7 amended: on a validated, canonically named, duplicate-free jungle,
`prune(age=limit)` succeeds and deletes exactly those versions `v` that are
not the current version and whose age in whole days — `int()` of
`(now − mtime)/86400`, i.e. truncation toward zero, which agrees with the
claimed `floor` whenever `mtime ≤ now` — strictly exceeds `limit`; every
other entry, including the current version whatever its age and every
unparseable name, is kept. -/
theorem c7_prune_age_spec (s : JungleState) (cv : StrictVersion) (limit : Int)
    (hck : check_current s = .ok cv) (hcanon : canonicalNames s = true)
    (hnd : (names s).Nodup) :
    prune_age s limit =
      (.ok (), filterState s (fun e =>
        match parseVersion e.1 with
        | none => true
        | some v => decide (svCmp v cv = Ordering.eq)
            || ! (decide (limit < Int.div (s.now - e.2) 86400)))) := by
  unfold prune_age
  simp only [hck]
  have hloop := @prune_age_loop_rm s cv limit hck hcanon hnd (versions s) [] (by simp)
  rw [show ([] : List StrictVersion).filter (agedOut s cv limit) = [] from rfl,
    rmNames_nil, List.nil_append] at hloop
  rw [hloop, rmNames_aged_eq s cv limit hcanon hnd]

/-- A release entry with a modification time 1.5 days in the future
(`now = 0`, `mtime = 129600`). -/
def exFuture : JungleState :=
  { release := [("0.9", 129600), ("1.0", 0)],
    current := some (.symlink "release/1.0"), currentNew := none, now := 0 }

/-- C7 counterexample: for `release/0.9` modified 1.5 days in the future,
`floor((now − mtime)/86400) = −2`, so with threshold `−2` the claim keeps it
(`−2 > −2` is false); the code computes `int(−1.5) = −1 > −2` and deletes it
— `int()` truncates toward zero, it does not floor. -/
theorem c7_counterexample :
    ¬ (-2 : Int) < Int.fdiv (exFuture.now - 129600) 86400 ∧
    ((-2 : Int) < Int.div (exFuture.now - 129600) 86400) ∧
    prune_age exFuture (-2) = (.ok (), { exFuture with release := [("1.0", 0)] }) ∧
    ("0.9", (129600 : Int)) ∉ (prune_age exFuture (-2)).2.release := by
  refine ⟨by decide, by decide, by decide, by decide⟩

/-- The spec's ages example: four canonical versions, current `2.0`,
ages 10, 9, 5 and 3 whole days at `now = 20` days. -/
def exAge : JungleState :=
  { release := [("1.0", 86400 * 10), ("1.0b3", 86400 * 11), ("1.2", 86400 * 15),
                ("2.0", 86400 * 17)],
    current := some (.symlink "release/2.0"), currentNew := none, now := 86400 * 20 }

theorem c7_witness :
    (check_current exAge = .ok exV20 ∧ canonicalNames exAge = true ∧
      (names exAge).Nodup) ∧
    prune_age exAge 9 =
      (.ok (), filterState exAge (fun e =>
        match parseVersion e.1 with
        | none => true
        | some v => decide (svCmp v exV20 = Ordering.eq)
            || ! (decide ((9 : Int) < Int.div (exAge.now - e.2) 86400)))) :=
  ⟨⟨by decide, by decide, by decide⟩,
    c7_prune_age_spec exAge exV20 9 (by decide) (by decide) (by decide)⟩

/-! ## Iteration pruning (C6) -/

/-- How many versions sort strictly below the current one. -/
def olderCount (s : JungleState) (cv : StrictVersion) : Nat :=
  ((sortedVersions s).filter (fun v => decide (svCmp v cv = Ordering.lt))).length

/-- A sorted version list splits into the versions below `cv` followed by the
rest. -/
theorem sorted_filter_partition (cv : StrictVersion) :
    ∀ (l : List StrictVersion), List.Pairwise svle l →
      l = l.filter (fun v => decide (svCmp v cv = Ordering.lt))
          ++ l.filter (fun v => ! decide (svCmp v cv = Ordering.lt)) := by
  intro l
  induction l with
  | nil => intro _; rfl
  | cons a rest ih =>
    intro hp
    rw [List.pairwise_cons] at hp
    obtain ⟨hrel, hrest⟩ := hp
    by_cases hpa : svCmp a cv = Ordering.lt
    · rw [List.filter_cons_of_pos (by simp [hpa]), List.filter_cons_of_neg (by simp [hpa])]
      rw [List.cons_append]
      congr 1
      exact ih hrest
    · have hnone : rest.filter (fun v => decide (svCmp v cv = Ordering.lt)) = [] := by
        rw [List.filter_eq_nil_iff]
        intro x hx
        simp only [decide_eq_true_eq]
        intro hxlt
        exact hpa (svle_lt_trans (hrel x hx) hxlt)
      have hall : rest.filter (fun v => ! decide (svCmp v cv = Ordering.lt)) = rest := by
        rw [List.filter_eq_self]
        intro x hx
        rw [Bool.not_eq_true', decide_eq_false_iff_not]
        intro hxlt
        exact hpa (svle_lt_trans (hrel x hx) hxlt)
      rw [List.filter_cons_of_neg (by simp [hpa]), List.filter_cons_of_pos (by simp [hpa]),
        hnone, hall]
      rfl

theorem cv_mem_sortedVersions {s : JungleState} {cv : StrictVersion}
    (hck : check_current s = .ok cv) : cv ∈ sortedVersions s := by
  obtain ⟨t, _, _, _, _, hex⟩ := check_ok_iff.mp hck
  unfold existsVersion at hex
  rw [List.any_eq_true] at hex
  obtain ⟨e, he, heq⟩ := hex
  have hname : e.1 = cv.str := by simpa using heq
  unfold sortedVersions
  rw [List.mem_insertionSort]
  exact mem_versions_of_entry he (by rw [hname]; exact parse_str cv)

/-- The versions taken from the sorted prefix are strictly below current, and
the entry straight after the prefix is the current version itself. -/
theorem c6_older_facts (s : JungleState) (cv : StrictVersion)
    (hck : check_current s = .ok cv) :
    (∀ i, i ≤ olderCount s cv → ∀ w ∈ (sortedVersions s).take i,
      svCmp w cv = Ordering.lt) ∧
    (∀ h : olderCount s cv < (sortedVersions s).length,
      (sortedVersions s).get ⟨olderCount s cv, h⟩ = cv) := by
  have hsorted : List.Pairwise svle (sortedVersions s) :=
    List.sorted_insertionSort svle (versions s)
  have hsplit := sorted_filter_partition cv (sortedVersions s) hsorted
  have hlen1 : ((sortedVersions s).filter
      (fun v => decide (svCmp v cv = Ordering.lt))).length = olderCount s cv := rfl
  have hocle : (sortedVersions s).take (olderCount s cv)
      = (sortedVersions s).filter (fun v => decide (svCmp v cv = Ordering.lt)) := by
    conv_lhs => rw [hsplit]
    rw [← hlen1, List.take_left]
  constructor
  · intro i hi w hw
    have ht : (sortedVersions s).take i
        = ((sortedVersions s).take (olderCount s cv)).take i := by
      rw [List.take_take, Nat.min_eq_left hi]
    rw [ht] at hw
    have hw2 := List.mem_of_mem_take hw
    rw [hocle, List.mem_filter] at hw2
    simpa using hw2.2
  · intro h
    have hcvmem := cv_mem_sortedVersions hck
    have hcvrest : cv ∈ (sortedVersions s).filter
        (fun v => ! decide (svCmp v cv = Ordering.lt)) := by
      rw [List.mem_filter]
      refine ⟨hcvmem, ?_⟩
      rw [Bool.not_eq_true', decide_eq_false_iff_not]
      intro hc
      rw [(svCmp_eq_iff cv cv).mpr rfl] at hc
      cases hc
    obtain ⟨hd, tl, hrest⟩ : ∃ hd tl, (sortedVersions s).filter
        (fun v => ! decide (svCmp v cv = Ordering.lt)) = hd :: tl := by
      cases hr : (sortedVersions s).filter (fun v => ! decide (svCmp v cv = Ordering.lt)) with
      | nil =>
        rw [hr] at hcvrest
        cases hcvrest
      | cons hd tl => exact ⟨hd, tl, rfl⟩
    have hsorted_rest : List.Pairwise svle (hd :: tl) := by
      rw [← hrest]
      exact hsorted.filter _
    have hhd_mem : hd ∈ (sortedVersions s).filter
        (fun v => ! decide (svCmp v cv = Ordering.lt)) := by
      rw [hrest]
      simp
    have hhd_not_lt : ¬ svCmp hd cv = Ordering.lt := by
      rw [List.mem_filter] at hhd_mem
      have h2 := hhd_mem.2
      rw [Bool.not_eq_true', decide_eq_false_iff_not] at h2
      exact h2
    have hle : svle hd cv := by
      rw [hrest] at hcvrest
      rcases List.mem_cons.mp hcvrest with heq | htl
      · rw [heq]
        exact listLe_refl _
      · rw [List.pairwise_cons] at hsorted_rest
        exact hsorted_rest.1 cv htl
    have hhd_cv : hd = cv := by
      rcases hcmp : svCmp hd cv with _ | _ | _
      · exact absurd hcmp hhd_not_lt
      · exact (svCmp_eq_iff hd cv).mp hcmp
      · exact absurd hcmp hle
    have hq : (sortedVersions s)[olderCount s cv]? = some hd := by
      conv_lhs => rw [hsplit, hrest]
      rw [List.getElem?_append_right (Nat.le_of_eq hlen1)]
      rw [hlen1, Nat.sub_self]
      simp
    have hq2 : (sortedVersions s)[olderCount s cv]?
        = some ((sortedVersions s).get ⟨olderCount s cv, h⟩) := by
      rw [List.getElem?_eq_getElem h]
      rw [List.get_eq_getElem]
    rw [hq] at hq2
    injection hq2 with hq3
    rw [← hq3]
    exact hhd_cv

theorem olderCount_lt {s : JungleState} {cv : StrictVersion}
    (hck : check_current s = .ok cv) :
    olderCount s cv < (sortedVersions s).length := by
  have hsorted : List.Pairwise svle (sortedVersions s) :=
    List.sorted_insertionSort svle (versions s)
  have hsplit := sorted_filter_partition cv (sortedVersions s) hsorted
  have hcvrest : cv ∈ (sortedVersions s).filter
      (fun v => ! decide (svCmp v cv = Ordering.lt)) := by
    rw [List.mem_filter]
    refine ⟨cv_mem_sortedVersions hck, ?_⟩
    rw [Bool.not_eq_true', decide_eq_false_iff_not]
    intro hc
    rw [(svCmp_eq_iff cv cv).mpr rfl] at hc
    cases hc
  have hlen : (sortedVersions s).length = olderCount s cv
      + ((sortedVersions s).filter (fun v => ! decide (svCmp v cv = Ordering.lt))).length := by
    conv_lhs => rw [hsplit]
    rw [List.length_append]
    rfl
  have hpos : 0 < ((sortedVersions s).filter
      (fun v => ! decide (svCmp v cv = Ordering.lt))).length :=
    List.length_pos_of_mem hcvrest
  omega

theorem c6_state_facts (s : JungleState) (cv : StrictVersion)
    (hck : check_current s = .ok cv) (hcanon : canonicalNames s = true)
    (hnd : (names s).Nodup) (i : Nat) (hi : i ≤ olderCount s cv) :
    check_current (rmNames s ((sortedVersions s).take i)) = .ok cv ∧
    sortedVersions (rmNames s ((sortedVersions s).take i)) = (sortedVersions s).drop i ∧
    (versions (rmNames s ((sortedVersions s).take i))).length
      = (sortedVersions s).length - i := by
  have holder := (c6_older_facts s cv hck).1 i hi
  have hprot : ∀ w ∈ (sortedVersions s).take i, ¬ svCmp w cv = Ordering.eq := by
    intro w hw hc
    have hlt := holder w hw
    rw [hc] at hlt
    cases hlt
  have hvsnd : (sortedVersions s).Nodup :=
    ((List.perm_insertionSort svle (versions s)).nodup_iff).mpr (versions_nodup hcanon hnd)
  have hck2 := check_rmNames _ hck hcanon hprot
  have hsv : sortedVersions (rmNames s ((sortedVersions s).take i))
      = (sortedVersions s).drop i := by
    rw [sortedVersions_rmNames _ hcanon]
    exact filter_not_mem_take (sortedVersions s) i hvsnd
  refine ⟨hck2, hsv, ?_⟩
  have hperm : (versions (rmNames s ((sortedVersions s).take i))).Perm
      (sortedVersions (rmNames s ((sortedVersions s).take i))) :=
    (List.perm_insertionSort svle _).symm
  rw [hsv] at hperm
  rw [hperm.length_eq, List.length_drop]

theorem take_getElem_succ (l : List StrictVersion) (i : Nat) (h : i < l.length) :
    l.take i ++ [l[i]] = l.take (i + 1) := by
  rw [← List.concat_eq_append]
  exact List.take_concat_get l i h

/-- One closed form for the whole iteration-pruning loop, started after the
`i` oldest versions (all strictly below current) are already gone. -/
theorem c6_loop (s : JungleState) (cv : StrictVersion)
    (hck : check_current s = .ok cv) (hcanon : canonicalNames s = true)
    (hnd : (names s).Nodup) :
    ∀ (d i : Nat), i + d = olderCount s cv → ∀ n : Int,
      prune_iter_loop (rmNames s ((sortedVersions s).take i)) n =
        (if ((sortedVersions s).length : Int) - i ≤ n
         then (.ok (), rmNames s ((sortedVersions s).take i))
         else if ((sortedVersions s).length : Int) - n ≤ (olderCount s cv : Int)
         then (.ok (), rmNames s ((sortedVersions s).take
                ((((sortedVersions s).length : Int) - n).toNat)))
         else (.error .cannotDeleteCurrent,
                rmNames s ((sortedVersions s).take (olderCount s cv)))) := by
  have hoclt := olderCount_lt hck
  have hvsnd : (sortedVersions s).Nodup :=
    ((List.perm_insertionSort svle (versions s)).nodup_iff).mpr (versions_nodup hcanon hnd)
  intro d
  induction d with
  | zero =>
    intro i hi n
    have hioc : i = olderCount s cv := by omega
    subst hioc
    obtain ⟨hck2, hsv, hlen⟩ :=
      c6_state_facts s cv hck hcanon hnd (olderCount s cv) (by omega)
    by_cases hstop : ((sortedVersions s).length : Int) - (olderCount s cv) ≤ n
    · rw [if_pos hstop]
      unfold prune_iter_loop
      rw [if_neg (by rw [hlen]; omega)]
    · rw [if_neg hstop]
      have holt : olderCount s cv < (sortedVersions s).length := by omega
      have hocv : (sortedVersions s).get ⟨olderCount s cv, holt⟩ = cv :=
        (c6_older_facts s cv hck).2 holt
      have hocv2 : (sortedVersions s)[olderCount s cv] = cv := hocv
      have hdrop : (sortedVersions s).drop (olderCount s cv)
          = cv :: (sortedVersions s).drop (olderCount s cv + 1) := by
        rw [List.drop_eq_getElem_cons holt, hocv2]
      have holdest : oldest (rmNames s ((sortedVersions s).take (olderCount s cv)))
          = .ok cv := by
        unfold oldest
        rw [hsv, hdrop]
      unfold prune_iter_loop
      rw [if_pos (by rw [hlen]; omega)]
      simp only [holdest, hck2]
      rw [if_pos ((svCmp_eq_iff cv cv).mpr rfl)]
      rw [if_neg (by omega)]
  | succ d ih =>
    intro i hi n
    have hioc : i < olderCount s cv := by omega
    obtain ⟨hck2, hsv, hlen⟩ := c6_state_facts s cv hck hcanon hnd i (by omega)
    have holt : i < (sortedVersions s).length := by omega
    by_cases hstop : ((sortedVersions s).length : Int) - i ≤ n
    · rw [if_pos hstop]
      unfold prune_iter_loop
      rw [if_neg (by rw [hlen]; omega)]
    · rw [if_neg hstop]
      have hwmem_take : (sortedVersions s)[i] ∈ (sortedVersions s).take (i + 1) := by
        have h1 := take_getElem_succ (sortedVersions s) i holt
        rw [← h1]
        exact List.mem_append_right _ (by simp)
      have hwlt : svCmp (sortedVersions s)[i] cv = Ordering.lt :=
        (c6_older_facts s cv hck).1 (i + 1) (by omega) _ hwmem_take
      have hwne : ¬ svCmp (sortedVersions s)[i] cv = Ordering.eq := by
        intro hc
        rw [hwlt] at hc
        cases hc
      have hdrop : (sortedVersions s).drop i
          = (sortedVersions s)[i] :: (sortedVersions s).drop (i + 1) :=
        List.drop_eq_getElem_cons holt
      have holdest : oldest (rmNames s ((sortedVersions s).take i))
          = .ok (sortedVersions s)[i] := by
        unfold oldest
        rw [hsv, hdrop]
      have hwmem : (sortedVersions s)[i] ∈ versions s := by
        have hm : (sortedVersions s)[i] ∈ sortedVersions s := List.getElem_mem holt
        unfold sortedVersions at hm
        exact (List.mem_insertionSort svle).mp hm
      have hmemdrop : (sortedVersions s)[i] ∈ (sortedVersions s).drop i := by
        rw [hdrop]
        exact List.mem_cons_self _ _
      have hwnotin : (sortedVersions s)[i] ∉ (sortedVersions s).take i := by
        intro hc
        have hnd2 := hvsnd
        rw [← List.take_append_drop i (sortedVersions s), List.nodup_append] at hnd2
        exact hnd2.2.2 hc hmemdrop
      have hprot : ∀ w ∈ (sortedVersions s).take i, ¬ svCmp w cv = Ordering.eq := by
        intro w hw hc
        have hlt := (c6_older_facts s cv hck).1 i (by omega) w hw
        rw [hc] at hlt
        cases hlt
      have hdel := delete_rmNames ((sortedVersions s).take i) ((sortedVersions s)[i])
        hck hcanon hprot hwmem hwnotin hwne
      unfold prune_iter_loop
      rw [if_pos (by rw [hlen]; omega)]
      simp only [holdest, hck2]
      rw [if_neg hwne]
      split
      · rename_i u2 s4 hdel2
        rw [hdel] at hdel2
        injection hdel2 with _ hs4
        rw [← hs4]
        rw [take_getElem_succ _ i holt]
        rw [ih (i + 1) (by omega) n]
        by_cases hstop2 : ((sortedVersions s).length : Int) - (i + 1) ≤ n
        · rw [if_pos (by push_cast; push_cast at hstop2; omega)]
          rw [if_pos (by omega)]
          rw [show ((((sortedVersions s).length : Int)) - n).toNat = i + 1 from by omega]
        · rw [if_neg (by push_cast; push_cast at hstop2; omega)]
      · rename_i e2 s4 hdel2
        rw [hdel] at hdel2
        exact absurd (congrArg Prod.fst hdel2) (by simp)

/-- Version `1.1`. -/
def exV11 : StrictVersion := ⟨1, 1, 0, none⟩

/-- The spec's iteration example: five canonical versions, current `1.1`. -/
def exIter : JungleState :=
  { release := [("1.0", 0), ("1.0b3", 0), ("1.1", 0), ("1.5", 0), ("2.0", 0)],
    current := some (.symlink "release/1.1"), currentNew := none, now := 0 }

/-- C6 amended: on a validated, canonically named, duplicate-free jungle,
`prune(iterations=n)` deletes the oldest remaining version while more than
`n` remain, so it succeeds deleting nothing when at most `n` versions are
listed, succeeds deleting exactly the `len - n` lowest versions when those
are all strictly below current, and otherwise aborts with the
Wont-delete-current OSError after deleting exactly the versions strictly
below current and nothing past that point. -/
theorem c6_prune_iterations_spec (s : JungleState) (cv : StrictVersion)
    (hck : check_current s = .ok cv) (hcanon : canonicalNames s = true)
    (hnd : (names s).Nodup) (n : Int) :
    prune_iterations s n =
      (if ((sortedVersions s).length : Int) ≤ n
       then (.ok (), s)
       else if ((sortedVersions s).length : Int) - n ≤ (olderCount s cv : Int)
       then (.ok (), rmNames s ((sortedVersions s).take
              ((((sortedVersions s).length : Int) - n).toNat)))
       else (.error .cannotDeleteCurrent,
              rmNames s ((sortedVersions s).take (olderCount s cv)))) := by
  unfold prune_iterations
  simp only [hck]
  have h := c6_loop s cv hck hcanon hnd (olderCount s cv) 0 (Nat.zero_add _) n
  simp only [List.take_zero, rmNames_nil, Nat.cast_zero, sub_zero] at h
  exact h

theorem c6_witness :
    (check_current exIter = .ok exV11 ∧ canonicalNames exIter = true ∧
      (names exIter).Nodup) ∧
    prune_iterations exIter 2 =
      (if ((sortedVersions exIter).length : Int) ≤ 2
       then (.ok (), exIter)
       else if ((sortedVersions exIter).length : Int) - 2
              ≤ (olderCount exIter exV11 : Int)
       then (.ok (), rmNames exIter ((sortedVersions exIter).take
              ((((sortedVersions exIter).length : Int) - 2).toNat)))
       else (.error .cannotDeleteCurrent,
              rmNames exIter ((sortedVersions exIter).take
                (olderCount exIter exV11)))) :=
  ⟨⟨by decide, by decide, by decide⟩,
    c6_prune_iterations_spec exIter exV11 (by decide) (by decide) (by decide) 2⟩

/-- C6 counterexample: on the mixed-name jungle (`release/1.0.0` parses as
version `1.0`, current validates as `2.0`) version `1.0` is the minimum of a
two-element version set, yet `prune(iterations=1)` does not delete it and
succeed as claimed: the inner `delete` probes the canonical path
`release/1.0`, which is absent, so the run fails with `KeyError` having
removed nothing. -/
theorem c6_counterexample :
    check_current exMixedState = .ok exV20 ∧
    versions exMixedState = [exV10, exV20] ∧
    svCmp exV10 exV20 = Ordering.lt ∧
    prune_iterations exMixedState 1 = (.error .keyError, exMixedState) := by
  refine ⟨by decide, by decide, by decide, ?_⟩
  unfold prune_iterations
  simp only [show check_current exMixedState = Except.ok exV20 from by decide]
  unfold prune_iter_loop
  rw [if_pos (by decide)]
  simp only [show oldest exMixedState = Except.ok exV10 from by decide,
    show check_current exMixedState = Except.ok exV20 from by decide]
  rw [if_neg (by decide)]
  split
  · rename_i u2 s2 hdel2
    rw [show delete exMixedState exV10 = (Except.error Err.keyError, exMixedState)
      from by decide] at hdel2
    exact absurd (congrArg Prod.fst hdel2) (by simp)
  · rename_i e2 s2 hdel2
    rw [show delete exMixedState exV10 = (Except.error Err.keyError, exMixedState)
      from by decide] at hdel2
    injection hdel2 with h1 h2
    rw [← h1, ← h2]

end Jungle
